import Mathlib

/-!
# process-manager: a verification development

Shallow embedding of `src/process-manager.cpp` (the full interactive program) and of
`src/src/process-manager.cpp` (the sampling core, which differs from the former in
`getProcessInfo` and `scanProcesses`), followed by theorems about the embedded code.

Conventions of the embedding

* `int` and `long` values are `Int`.  The per-process tick arithmetic of `getProcessInfo`
  (`utime + stime` and its difference to the cached value) is reduced to the 64-bit
  two's-complement range by `wrapLong`, as the compiled program does (signed overflow is
  undefined in C++).  The sums over the system-wide counters in `getSystemInfo` are exact.
  The decimal parser keeps the range check of the C++ library (out-of-range text sets
  `failbit`).
* `double` is the type `Double` below: a finite value is a signed 53-bit significand times a
  power of two, every arithmetic result is rounded to nearest, ties to even.  The exponent
  range is not bounded; all quantities computed by the program are quotients and products of
  64-bit integers and `100.0`, which lie well inside the binary64 range.  The sign of zero is
  not recorded (`-0.0` and `0.0` compare equal in C++).
* `std::string` is `List Char`, one `Char` per byte, compared by byte value.
* `std::istringstream` is `IStream`: the unread characters with `eofbit` and `failbit`.
* A local variable of arithmetic type that is read although no extraction wrote it holds an
  indeterminate value in C++; the embedding reports `Outcome.undefined` there.  A C++
  exception leaving a function is `Outcome.thrown`.
-/

namespace Cpp

/-! ## binary64 arithmetic -/

/-- A binary64 value: `finite m e` stands for `m * 2 ^ e`, with `m = 0 ∧ e = 0` for zero and
`2 ^ 52 ≤ |m| < 2 ^ 53` otherwise. -/
inductive Double where
  | finite (m : Int) (e : Int)
  | inf (negative : Bool)
  | nan
deriving DecidableEq, Repr

/-- The integer nearest to `n / d`, ties to the even one (`d > 0`). -/
def roundHalfEven (n d : Nat) : Nat :=
  let q := n / d
  let r := n % d
  if 2 * r < d then q
  else if d < 2 * r then q + 1
  else if q % 2 = 0 then q else q + 1

/-- The number of binary digits of `n`, counted with at most `fuel` halvings. -/
def bitLength : Nat → Nat → Nat
  | 0, _ => 0
  | fuel + 1, n => if n = 0 then 0 else bitLength fuel (n / 2) + 1

/-- The integer `⌊log₂ n⌋` for `n > 0`. -/
def floorLog2 (n : Nat) : Nat := bitLength n n - 1

/-- The integer `⌊log₂ (n / d)⌋` for `n, d > 0`. -/
def ilog2Quot (n d : Nat) : Int :=
  let e0 : Int := (floorLog2 n : Int) - (floorLog2 d : Int)
  if n * 2 ^ (-e0).toNat < d * 2 ^ e0.toNat then e0 - 1 else e0

/-- Round the positive rational `n / d` to 53 significant bits: the result `(m, e)` stands for
`m * 2 ^ e` with `2 ^ 52 ≤ m < 2 ^ 53`. -/
def roundPos (n d : Nat) : Nat × Int :=
  let s : Int := 52 - ilog2Quot n d
  let m := roundHalfEven (n * 2 ^ s.toNat) (d * 2 ^ (-s).toNat)
  if m = 2 ^ 53 then (2 ^ 52, 1 - s) else (m, -s)

/-- The binary64 value nearest to `± (n / d) * 2 ^ shift` (`d > 0`). -/
def Double.ofRatio (negative : Bool) (n d : Nat) (shift : Int) : Double :=
  if n = 0 then .finite 0 0
  else
    let r := roundPos n d
    .finite (if negative then -(r.1 : Int) else (r.1 : Int)) (r.2 + shift)

/-- The conversion `(double)x` of an integer. -/
def Double.ofLong (x : Int) : Double :=
  Double.ofRatio (decide (x < 0)) x.natAbs 1 0

/-- The literal `0.0`. -/
def Double.zero : Double := .finite 0 0

/-- The literal `100.0`. -/
def Double.hundred : Double := Double.ofLong 100

/-- The literal `-1.0`. -/
def Double.minusOne : Double := Double.ofLong (-1)

/-- Binary64 division `a / b`. -/
def Double.div : Double → Double → Double
  | .nan, _ => .nan
  | _, .nan => .nan
  | .inf _, .inf _ => .nan
  | .inf s, .finite m _ => .inf (xor s (decide (m < 0)))
  | .finite _ _, .inf _ => .finite 0 0
  | .finite m1 e1, .finite m2 e2 =>
    if m2 = 0 then (if m1 = 0 then .nan else .inf (decide (m1 < 0)))
    else Double.ofRatio (xor (decide (m1 < 0)) (decide (m2 < 0))) m1.natAbs m2.natAbs (e1 - e2)

/-- Binary64 multiplication `a * b`. -/
def Double.mul : Double → Double → Double
  | .nan, _ => .nan
  | _, .nan => .nan
  | .inf s, .inf t => .inf (xor s t)
  | .inf s, .finite m _ => if m = 0 then .nan else .inf (xor s (decide (m < 0)))
  | .finite m _, .inf s => if m = 0 then .nan else .inf (xor s (decide (m < 0)))
  | .finite m1 e1, .finite m2 e2 =>
    Double.ofRatio (xor (decide (m1 < 0)) (decide (m2 < 0))) (m1.natAbs * m2.natAbs) 1 (e1 + e2)

/-- The comparison `a < b` of two doubles (false when either is NaN). -/
def Double.lt : Double → Double → Bool
  | .nan, _ => false
  | _, .nan => false
  | .inf s, .inf t => s && !t
  | .inf s, .finite _ _ => s
  | .finite _ _, .inf t => !t
  | .finite m1 e1, .finite m2 e2 =>
    decide (m1 * 2 ^ (e1 - min e1 e2).toNat < m2 * 2 ^ (e2 - min e1 e2).toNat)

/-- The comparison `a >= b` of two doubles (false when either is NaN). -/
def Double.ge : Double → Double → Bool
  | .nan, _ => false
  | _, .nan => false
  | .inf s, .inf t => !s || t
  | .inf s, .finite _ _ => !s
  | .finite _ _, .inf t => t
  | .finite m1 e1, .finite m2 e2 =>
    decide (m2 * 2 ^ (e2 - min e1 e2).toNat ≤ m1 * 2 ^ (e1 - min e1 e2).toNat)

/-- The rational number a finite double stands for (0 for infinities and NaN). -/
def Double.toRat : Double → ℚ
  | .finite m e => (m : ℚ) * (2 : ℚ) ^ e
  | _ => 0

/-- The conversion `(int)d`: truncation toward zero; `none` (undefined behaviour) for NaN, the
infinities and values outside the range of `int`. -/
def Double.toInt32 : Double → Option Int
  | .finite m e =>
    let magnitude : Nat :=
      if 0 ≤ e then m.natAbs * 2 ^ e.toNat else m.natAbs / 2 ^ (-e).toNat
    let v : Int := if m < 0 then -(magnitude : Int) else (magnitude : Int)
    if v < -(2 ^ 31) || 2 ^ 31 - 1 < v then none else some v
  | _ => none

/-- A finite double. -/
def Double.IsFinite : Double → Prop
  | .finite _ _ => True
  | _ => False

/-- A finite double other than zero. -/
def Double.IsNonzeroFinite : Double → Prop
  | .finite m _ => m ≠ 0
  | _ => False

/-- A finite double that is not negative. -/
def Double.IsNonneg : Double → Prop
  | .finite m _ => 0 ≤ m
  | _ => False

/-- The approximation `a` is within relative error `ε` of the exact value `e`. -/
def Near (ε a e : ℚ) : Prop := |a - e| ≤ |e| * ε

/-! ## `std::istringstream` -/

/-- The result of running a piece of the program. -/
inductive Outcome (α : Type) where
  | ok (a : α)
  | thrown
  | undefined

/-- The successful result of an outcome, if any. -/
def Outcome.toOption {α : Type} : Outcome α → Option α
  | .ok a => some a
  | _ => none

/-- An input string stream: unread characters and the two state bits the program can set. -/
structure IStream where
  buf : List Char
  eofbit : Bool
  failbit : Bool
deriving DecidableEq, Repr

/-- The stream `std::istringstream iss(line)`. -/
def IStream.ofLine (line : List Char) : IStream := ⟨line, false, false⟩

/-- The test `good()`. -/
def IStream.good (s : IStream) : Bool := !s.eofbit && !s.failbit

/-- The classification `isspace` of the C locale. -/
def isspace (c : Char) : Bool :=
  c.toNat == 32 || (9 ≤ c.toNat && c.toNat ≤ 13)

/-- The classification `isdigit`. -/
def isdigit (c : Char) : Bool := 48 ≤ c.toNat && c.toNat ≤ 57

/-- The sentry of a formatted extraction: fails on a stream that is not good, skips leading
whitespace, and fails with `eofbit` when nothing but whitespace is left. -/
def IStream.sentry (s : IStream) : IStream × Bool :=
  if !s.good then ({ s with failbit := true }, false)
  else
    let rest := s.buf.dropWhile isspace
    if rest.isEmpty then (⟨[], true, true⟩, false)
    else (⟨rest, false, false⟩, true)

/-- The extraction `iss >> str` into a `std::string`: `none` when the string is left
untouched, otherwise the whitespace-delimited word. -/
def IStream.readString (s : IStream) : IStream × Option (List Char) :=
  let r := s.sentry
  if !r.2 then (r.1, none)
  else
    let word := r.1.buf.takeWhile (fun c => !isspace c)
    let rest := r.1.buf.dropWhile (fun c => !isspace c)
    (⟨rest, rest.isEmpty, false⟩, some word)

/-- The value of a run of decimal digits. -/
def digitsValue (ds : List Char) : Nat :=
  ds.foldl (fun acc c => 10 * acc + (c.toNat - 48)) 0

/-- The extraction `iss >> x` into a signed integer with range `[lo, hi]`: `none` when `x`
is left untouched (the stream was not good), `some 0` with `failbit` when no digit is found,
the clamped value with `failbit` when the text is out of range. -/
def IStream.readInteger (lo hi : Int) (s : IStream) : IStream × Option Int :=
  let r := s.sentry
  if !r.2 then (r.1, none)
  else
    let negative := r.1.buf.head? == some (Char.ofNat 45)
    let signed := negative || r.1.buf.head? == some (Char.ofNat 43)
    let body := if signed then r.1.buf.tail else r.1.buf
    let digits := body.takeWhile isdigit
    let rest := body.dropWhile isdigit
    if digits.isEmpty then (⟨rest, rest.isEmpty, true⟩, some 0)
    else
      let v : Int := if negative then -(digitsValue digits : Int) else (digitsValue digits : Int)
      if hi < v then (⟨rest, rest.isEmpty, true⟩, some hi)
      else if v < lo then (⟨rest, rest.isEmpty, true⟩, some lo)
      else (⟨rest, rest.isEmpty, false⟩, some v)

/-- The extraction into an `int`. -/
def IStream.readInt (s : IStream) : IStream × Option Int :=
  s.readInteger (-(2 ^ 31)) (2 ^ 31 - 1)

/-- The extraction into a `long`. -/
def IStream.readLong (s : IStream) : IStream × Option Int :=
  s.readInteger (-(2 ^ 63)) (2 ^ 63 - 1)

/-- The loop of `ignore(n, delim)`: discard characters until `n` are discarded, the
delimiter is discarded, or the input ends (second component: the end was reached). -/
def ignoreLoop (delim : Char) : Nat → List Char → List Char × Bool
  | 0, cs => (cs, false)
  | _ + 1, [] => ([], true)
  | n + 1, c :: cs => if c = delim then (cs, false) else ignoreLoop delim n cs

/-- The unformatted input function `iss.ignore(n, delim)`. -/
def IStream.ignore (n : Nat) (delim : Char) (s : IStream) : IStream :=
  if !s.good then { s with failbit := true }
  else
    let r := ignoreLoop delim n s.buf
    ⟨r.1, r.2, false⟩

/-- Repeat `iss.ignore(256, ' ')` a number of times: `for (int i = 0; i < k; i++)`. -/
def IStream.ignoreFields : Nat → IStream → IStream
  | 0, s => s
  | k + 1, s => IStream.ignoreFields k (s.ignore 256 (Char.ofNat 32))

/-- The call `std::stoi(str)`: skip whitespace, read an optional sign and decimal digits;
`none` when it throws (`invalid_argument` without a digit, `out_of_range` outside `int`). -/
def stoi (str : List Char) : Option Int :=
  let body0 := str.dropWhile isspace
  let negative := body0.head? == some (Char.ofNat 45)
  let signed := negative || body0.head? == some (Char.ofNat 43)
  let body := if signed then body0.tail else body0
  let digits := body.takeWhile isdigit
  if digits.isEmpty then none
  else
    let v : Int := if negative then -(digitsValue digits : Int) else (digitsValue digits : Int)
    if v < -(2 ^ 31) || 2 ^ 31 - 1 < v then none else some v

/-- The call `std::to_string(x)` for an integer. -/
def to_string (x : Int) : List Char :=
  if x < 0 then Char.ofNat 45 :: Nat.toDigits 10 x.natAbs else Nat.toDigits 10 x.natAbs

/-- The call `str.substr(pos, count)`, `count` a `size_t`: `none` when it throws
`out_of_range` (`pos > size()`). -/
def substr (str : List Char) (pos count : Nat) : Option (List Char) :=
  if str.length < pos then none else some ((str.drop pos).take count)

/-- The `size_t` value of `a - b` for `a, b < 2 ^ 64`. -/
def sizeSub (a b : Nat) : Nat := (a + 2 ^ 64 - b) % 2 ^ 64

/-- The comparison `a < b` of two `std::string`s: byte-wise lexicographic. -/
def strLt : List Char → List Char → Bool
  | _, [] => false
  | [], _ :: _ => true
  | a :: as, b :: bs =>
    if a.toNat < b.toNat then true
    else if b.toNat < a.toNat then false
    else strLt as bs

/-- The value of a `long` expression whose mathematical result is `x`: inside
`[-2 ^ 63, 2 ^ 63)` it is `x`; outside, signed overflow is undefined in C++ and the compiled
program wraps around modulo `2 ^ 64`. -/
def wrapLong (x : Int) : Int := (x + 2 ^ 63) % 2 ^ 64 - 2 ^ 63

/-- The conversion `(int)n` of a `size_t`. -/
def toInt32 (n : Nat) : Int :=
  if n % 2 ^ 32 < 2 ^ 31 then ((n % 2 ^ 32 : Nat) : Int) else ((n % 2 ^ 32 : Nat) : Int) - 2 ^ 32

/-- Whether `comp` is a strict weak ordering on the values in `l`: irreflexive, transitive,
and with a transitive incomparability relation. -/
def isStrictWeakOrderOn {α : Type} (comp : α → α → Bool) (l : List α) : Bool :=
  l.all (fun a => !comp a a) &&
  l.all (fun a => l.all (fun b => l.all (fun c => !(comp a b && comp b c) || comp a c))) &&
  l.all (fun a => l.all (fun b => l.all (fun c =>
    !(!comp a b && !comp b a && !comp b c && !comp c b) || (!comp a c && !comp c a))))

/-- Insert `a` before the first element that `comp` does not rank before it. -/
def sortedInsert {α : Type} (comp : α → α → Bool) (a : α) : List α → List α
  | [] => [a]
  | b :: l => if comp b a then b :: sortedInsert comp a l else a :: b :: l

/-- Sort a list by repeated insertion. -/
def insertionSort {α : Type} (comp : α → α → Bool) : List α → List α
  | [] => []
  | a :: l => sortedInsert comp a (insertionSort comp l)

/-- The call `std::sort(first, last, comp)` on the contents of a vector.  The C++ standard
requires `comp` to induce a strict weak ordering on the values; otherwise the behaviour is
undefined (`none`).  When the requirement is met the result is a permutation sorted by
`comp`; the order of equivalent elements is unspecified, and the model keeps their input
order. -/
def stdSort {α : Type} (comp : α → α → Bool) (l : List α) : Option (List α) :=
  if isStrictWeakOrderOn comp l then some (insertionSort comp l) else none

end Cpp

open Cpp

/-! ## Data model (`src/process-manager.cpp` lines 19-49) -/

/-- The record `struct ProcessInfo`. -/
structure ProcessInfo where
  pid : Int
  name : List Char
  state : List Char
  ppid : Int
  cpu_percent : Double
  mem_percent : Double
  mem_rss : Int
  mem_vms : Int
  user : List Char
  utime : Int
  stime : Int
  starttime : Int
deriving DecidableEq, Repr

/-- The record `struct SystemInfo`. -/
structure SystemInfo where
  cpu_percent : Double
  total_mem : Int
  used_mem : Int
  free_mem : Int
  total_processes : Int
  running_processes : Int
deriving DecidableEq, Repr

/-- The private fields of `class ProcessManager`; `prev_cpu_times` is the
`std::map<int, long>`. -/
structure ProcessManager where
  processes : List ProcessInfo
  sys_info : SystemInfo
  prev_cpu_times : Int → Option Int
  prev_total_cpu_time : Int
  sort_column : Int
  reverse_sort : Bool

/-- One entry returned by `readdir`. -/
structure Dirent where
  d_type : Nat
  d_name : List Char
deriving DecidableEq, Repr

/-- The constant `DT_DIR`. -/
def DT_DIR : Nat := 4

/-- What the program reads from the operating system during one cycle: the lines of each
file (`none` when the file cannot be opened), the entries of `/proc` (`none` when `opendir`
fails) and the value of `sysconf(_SC_CLK_TCK)`. -/
structure ProcFs where
  meminfo : Option (List (List Char))
  stat : Option (List (List Char))
  pidStat : Int → Option (List (List Char))
  pidStatus : Int → Option (List (List Char))
  procDir : Option (List Dirent)
  clk_tck : Int

/-- The value `SystemInfo info = {}`. -/
def SystemInfo.zeroed : SystemInfo := ⟨Double.zero, 0, 0, 0, 0, 0⟩

/-- The value `ProcessInfo proc = {}` of `src/process-manager.cpp`. -/
def ProcessInfo.zeroed : ProcessInfo :=
  ⟨0, [], [], 0, Double.zero, Double.zero, 0, 0, [], 0, 0, 0⟩

/-- The constructor `ProcessManager()`: it sets `sort_column`, `reverse_sort` and
`prev_total_cpu_time` and leaves the containers empty.  It does not initialise `sys_info`,
which every `scanProcesses` assigns before the first use; the model starts it zeroed. -/
def ProcessManager.init : ProcessManager :=
  ⟨[], SystemInfo.zeroed, fun _ => none, 0, 4, true⟩

/-- The assignment `prev_cpu_times[pid] = total_time`. -/
def cacheStore (cache : Int → Option Int) (pid total_time : Int) : Int → Option Int :=
  fun k => if k = pid then some total_time else cache k

/-! ## System sample: `getSystemInfo` (the same text in both source files) -/

/-- Body of the `/proc/meminfo` loop for one line (`src/process-manager.cpp` lines 86-97);
`none` when the local `available` is used without having been written. -/
def meminfoLine (info : SystemInfo) (line : List Char) : Option SystemInfo :=
  if "MemTotal:".toList.isPrefixOf line then
    let r1 := (IStream.ofLine line).readString
    let r2 := r1.1.readLong
    some { info with total_mem := r2.2.getD info.total_mem }
  else if "MemAvailable:".toList.isPrefixOf line then
    let r1 := (IStream.ofLine line).readString
    let r2 := r1.1.readLong
    match r2.2 with
    | none => none
    | some available =>
      some { info with used_mem := info.total_mem - available, free_mem := available }
  else some info

/-- The eight tick buckets of the first line of `/proc/stat`. -/
structure CpuTicks where
  user : Int
  nice : Int
  system : Int
  idle : Int
  iowait : Int
  irq : Int
  softirq : Int
  steal : Int
deriving DecidableEq, Repr

/-- The extraction `iss >> cpu >> user >> nice >> system >> idle >> iowait >> irq >> softirq
>> steal` (line 106); `none` when one of the eight locals is left unwritten. -/
def parseCpuLine (line : List Char) : Option CpuTicks :=
  let r0 := (IStream.ofLine line).readString
  let r1 := r0.1.readLong
  let r2 := r1.1.readLong
  let r3 := r2.1.readLong
  let r4 := r3.1.readLong
  let r5 := r4.1.readLong
  let r6 := r5.1.readLong
  let r7 := r6.1.readLong
  let r8 := r7.1.readLong
  match r1.2, r2.2, r3.2, r4.2, r5.2, r6.2, r7.2, r8.2 with
  | some user, some nice, some system, some idle, some iowait, some irq, some softirq,
    some steal => some ⟨user, nice, system, idle, iowait, irq, softirq, steal⟩
  | _, _, _, _, _, _, _, _ => none

/-- The value of `total` on line 108. -/
def CpuTicks.total (t : CpuTicks) : Int :=
  t.user + t.nice + t.system + t.idle + t.iowait + t.irq + t.softirq + t.steal

/-- The value of `work` on line 109. -/
def CpuTicks.work (t : CpuTicks) : Int := t.user + t.nice + t.system

/-- Lines 111-115: the new `info.cpu_percent`, given the stored `prev_total_cpu_time`. -/
def cpuUsage (prev_total_cpu_time : Int) (t : CpuTicks) (info : SystemInfo) : SystemInfo :=
  if prev_total_cpu_time > 0 then
    let total_diff := t.total - prev_total_cpu_time
    let work_diff := t.work - (prev_total_cpu_time - t.idle)
    { info with
      cpu_percent :=
        if total_diff > 0 then
          Double.mul (Double.div (Double.ofLong work_diff) (Double.ofLong total_diff))
            Double.hundred
        else Double.zero }
  else info

/-- The method `getSystemInfo` (`src/process-manager.cpp` lines 79-120). -/
def ProcessManager.getSystemInfo (pm : ProcessManager) (fs : ProcFs) :
    Outcome (SystemInfo × ProcessManager) :=
  match (fs.meminfo.getD []).foldl (fun acc line => acc.bind (fun i => meminfoLine i line))
      (some SystemInfo.zeroed) with
  | none => .undefined
  | some info =>
    match (fs.stat.getD []).head? with
    | none => .ok (info, pm)
    | some line =>
      match parseCpuLine line with
      | none => .undefined
      | some t =>
        .ok (cpuUsage pm.prev_total_cpu_time t info, { pm with prev_total_cpu_time := t.total })

/-! ## Process sample: `getProcessInfo` -/

/-- The method `getUserName`. -/
def getUserName (uid : Int) : List Char := to_string uid

/-- What the extractions from the `stat` line leave in `proc.pid`, `comm`, `state`, `ppid`,
`utime`, `stime` and `starttime`; `none` marks a variable no extraction wrote. -/
structure StatFields where
  pid : Option Int
  comm : List Char
  state : List Char
  ppid : Option Int
  utime : Option Int
  stime : Option Int
  starttime : Option Int
deriving DecidableEq, Repr

/-- The extraction sequence of `getProcessInfo` (`src/process-manager.cpp` lines 140-144,
`src/src/process-manager.cpp` lines 133-137). -/
def parseStatLine (line : List Char) : StatFields :=
  let r1 := (IStream.ofLine line).readInt
  let r2 := r1.1.readString
  let r3 := r2.1.readString
  let r4 := r3.1.readInt
  let s5 := IStream.ignoreFields 9 r4.1
  let r6 := s5.readLong
  let r7 := r6.1.readLong
  let s8 := IStream.ignoreFields 6 r7.1
  let r9 := s8.readLong
  ⟨r1.2, r2.2.getD [], r3.2.getD [], r4.2, r6.2, r7.2, r9.2⟩

/-- The assignments that follow the extractions (lines 146-151): `substr` throws on an empty
`comm`; copying an unwritten local is undefined. -/
def applyStat (proc : ProcessInfo) (line : List Char) : Outcome ProcessInfo :=
  let f := parseStatLine line
  match substr f.comm 1 (sizeSub f.comm.length 2) with
  | none => .thrown
  | some name =>
    match f.ppid, f.utime, f.stime, f.starttime with
    | some ppid, some utime, some stime, some starttime =>
      .ok { proc with
            pid := f.pid.getD proc.pid, name := name, state := f.state, ppid := ppid,
            utime := utime, stime := stime, starttime := starttime }
    | _, _, _, _ => .undefined

/-- Body of the `/proc/[pid]/status` loop for one line (lines 157-171); `none` when the
local `uid` is used without having been written. -/
def statusLine (proc : ProcessInfo) (line : List Char) : Option ProcessInfo :=
  if "VmRSS:".toList.isPrefixOf line then
    let r1 := (IStream.ofLine line).readString
    let r2 := r1.1.readLong
    some { proc with mem_rss := r2.2.getD proc.mem_rss }
  else if "VmSize:".toList.isPrefixOf line then
    let r1 := (IStream.ofLine line).readString
    let r2 := r1.1.readLong
    some { proc with mem_vms := r2.2.getD proc.mem_vms }
  else if "Uid:".toList.isPrefixOf line then
    let r1 := (IStream.ofLine line).readString
    let r2 := r1.1.readInt
    match r2.2 with
    | none => none
    | some uid => some { proc with user := getUserName uid }
  else some proc

/-- The expression `(double)x / y * 100.0` with `x` and `y` of type `long`. -/
def percentOf (x y : Int) : Double :=
  Double.mul (Double.div (Double.ofLong x) (Double.ofLong y)) Double.hundred

/-- The tail of `getProcessInfo` (`src/process-manager.cpp` lines 174-188,
`src/src/process-manager.cpp` lines 167-179): CPU percentage from the cache, cache update,
memory percentage.  `total_time` and `time_diff` are of type `long`. -/
def rateProcess (pm : ProcessManager) (fs : ProcFs) (pid : Int) (proc : ProcessInfo) :
    ProcessInfo × ProcessManager :=
  let total_time := wrapLong (proc.utime + proc.stime)
  let proc1 :=
    match pm.prev_cpu_times pid with
    | some prev =>
      let time_diff := wrapLong (total_time - prev)
      { proc with cpu_percent := percentOf time_diff fs.clk_tck }
    | none => proc
  let pm1 := { pm with prev_cpu_times := cacheStore pm.prev_cpu_times pid total_time }
  let proc2 :=
    if pm.sys_info.total_mem > 0 then
      { proc1 with mem_percent := percentOf proc1.mem_rss pm.sys_info.total_mem }
    else proc1
  (proc2, pm1)

/-- The status loop over all lines of the file. -/
def readStatus (proc : ProcessInfo) (lines : List (List Char)) : Option ProcessInfo :=
  lines.foldl (fun acc line => acc.bind (fun p => statusLine p line)) (some proc)

/-- The method `getProcessInfo` of `src/process-manager.cpp` (lines 127-189). -/
def ProcessManager.getProcessInfo (pm : ProcessManager) (fs : ProcFs) (pid : Int) :
    Outcome (ProcessInfo × ProcessManager) :=
  let proc0 := { ProcessInfo.zeroed with pid := pid }
  let afterStat :=
    match ((fs.pidStat pid).getD []).head? with
    | some line => applyStat proc0 line
    | none => .ok proc0
  match afterStat with
  | .thrown => .thrown
  | .undefined => .undefined
  | .ok proc1 =>
    match readStatus proc1 ((fs.pidStatus pid).getD []) with
    | none => .undefined
    | some proc2 => .ok (rateProcess pm fs pid proc2)

/-- The method `getProcessInfo` of `src/src/process-manager.cpp` (lines 116-180). -/
def SrcProcessManager.getProcessInfo (pm : ProcessManager) (fs : ProcFs) (pid : Int) :
    Outcome (ProcessInfo × ProcessManager) :=
  let proc0 :=
    { ProcessInfo.zeroed with
      pid := pid, cpu_percent := Double.minusOne, mem_percent := Double.minusOne }
  match fs.pidStat pid with
  | none => .thrown
  | some statLines =>
    match statLines.head? with
    | none => .thrown
    | some line =>
      match applyStat proc0 line with
      | .thrown => .thrown
      | .undefined => .undefined
      | .ok proc1 =>
        match fs.pidStatus pid with
        | none => .thrown
        | some statusLines =>
          match readStatus proc1 statusLines with
          | none => .undefined
          | some proc2 => .ok (rateProcess pm fs pid proc2)

/-! ## The scan: `scanProcesses` -/

/-- The test of `src/process-manager.cpp` line 206. -/
def ProcessManager.keeps (proc : ProcessInfo) : Bool := !proc.name.isEmpty

/-- The test of `src/src/process-manager.cpp` line 197. -/
def SrcProcessManager.keeps (proc : ProcessInfo) : Bool :=
  !proc.name.isEmpty && Double.ge proc.cpu_percent Double.zero
    && Double.ge proc.mem_percent Double.zero

/-- Body of the `readdir` loop for one entry, for the given `getProcessInfo` and test:
`stoi` is called outside the `try` block, so its exception leaves the scan; an exception of
`getProcessInfo` is caught and the entry skipped. -/
def scanEntry
    (sample : ProcessManager → ProcFs → Int → Outcome (ProcessInfo × ProcessManager))
    (keeps : ProcessInfo → Bool) (fs : ProcFs) (pm : ProcessManager) (entry : Dirent) :
    Outcome ProcessManager :=
  if entry.d_type == DT_DIR && entry.d_name.all isdigit then
    match stoi entry.d_name with
    | none => .thrown
    | some pid =>
      match sample pm fs pid with
      | .ok (proc, pm1) =>
        if keeps proc then .ok { pm1 with processes := pm1.processes ++ [proc] } else .ok pm1
      | .thrown => .ok pm
      | .undefined => .undefined
  else .ok pm

/-- The `readdir` loop over the entries of `/proc`. -/
def scanLoop
    (sample : ProcessManager → ProcFs → Int → Outcome (ProcessInfo × ProcessManager))
    (keeps : ProcessInfo → Bool) (fs : ProcFs) :
    ProcessManager → List Dirent → Outcome ProcessManager
  | pm, [] => .ok pm
  | pm, entry :: rest =>
    match scanEntry sample keeps fs pm entry with
    | .ok pm1 => scanLoop sample keeps fs pm1 rest
    | .thrown => .thrown
    | .undefined => .undefined

/-- The last two statements of `scanProcesses`: the process counters of `sys_info`. -/
def countProcesses (pm : ProcessManager) : ProcessManager :=
  { pm with
    sys_info :=
      { pm.sys_info with
        total_processes := toInt32 pm.processes.length
        running_processes :=
          toInt32 (pm.processes.countP (fun p => p.state == "R".toList)) } }

/-- The common shape of `scanProcesses` in both files. -/
def scanWith
    (sample : ProcessManager → ProcFs → Int → Outcome (ProcessInfo × ProcessManager))
    (keeps : ProcessInfo → Bool) (pm : ProcessManager) (fs : ProcFs) :
    Outcome ProcessManager :=
  match ProcessManager.getSystemInfo { pm with processes := [] } fs with
  | .thrown => .thrown
  | .undefined => .undefined
  | .ok (info, pm1) =>
    let pm2 := { pm1 with sys_info := info }
    match fs.procDir with
    | none => .ok pm2
    | some entries =>
      match scanLoop sample keeps fs pm2 entries with
      | .ok pm3 => .ok (countProcesses pm3)
      | .thrown => .thrown
      | .undefined => .undefined

/-- The method `scanProcesses` of `src/process-manager.cpp` (lines 191-221). -/
def ProcessManager.scanProcesses (pm : ProcessManager) (fs : ProcFs) : Outcome ProcessManager :=
  scanWith ProcessManager.getProcessInfo ProcessManager.keeps pm fs

/-- The method `scanProcesses` of `src/src/process-manager.cpp` (lines 182-209). -/
def SrcProcessManager.scanProcesses (pm : ProcessManager) (fs : ProcFs) :
    Outcome ProcessManager :=
  scanWith SrcProcessManager.getProcessInfo SrcProcessManager.keeps pm fs

/-! ## Sorting: `sortProcesses`, `setSortColumn` and the `r` command -/

/-- The comparison lambda of `sortProcesses` (`src/process-manager.cpp` lines 224-237). -/
def ProcessManager.sortComp (pm : ProcessManager) (a b : ProcessInfo) : Bool :=
  let result :=
    if pm.sort_column = 0 then decide (a.pid < b.pid)
    else if pm.sort_column = 1 then strLt a.name b.name
    else if pm.sort_column = 2 then strLt a.state b.state
    else if pm.sort_column = 3 then strLt a.user b.user
    else if pm.sort_column = 4 then Double.lt a.cpu_percent b.cpu_percent
    else if pm.sort_column = 5 then Double.lt a.mem_percent b.mem_percent
    else if pm.sort_column = 6 then decide (a.mem_rss < b.mem_rss)
    else Double.lt a.cpu_percent b.cpu_percent
  if pm.reverse_sort then !result else result

/-- The method `sortProcesses` (lines 223-238); `none` is undefined behaviour of
`std::sort`. -/
def ProcessManager.sortProcesses (pm : ProcessManager) : Option ProcessManager :=
  (stdSort pm.sortComp pm.processes).map (fun sorted => { pm with processes := sorted })

/-- The method `setSortColumn` (lines 318-325). -/
def ProcessManager.setSortColumn (pm : ProcessManager) (col : Int) : ProcessManager :=
  if pm.sort_column = col then { pm with reverse_sort := !pm.reverse_sort }
  else { pm with sort_column := col, reverse_sort := (col == 4 || col == 5) }

/-- The `switch (ch)` of `run` (lines 354-398): the new state and the new value of `running`.
The `k` command talks to the terminal and sends a signal; it leaves the fields alone. -/
def ProcessManager.command (pm : ProcessManager) (ch : Char) : ProcessManager × Bool :=
  if ch.toNat = 113 || ch.toNat = 81 then (pm, false)
  else if ch.toNat = 99 || ch.toNat = 67 then (pm.setSortColumn 4, true)
  else if ch.toNat = 109 || ch.toNat = 77 then (pm.setSortColumn 5, true)
  else if ch.toNat = 112 || ch.toNat = 80 then (pm.setSortColumn 0, true)
  else if ch.toNat = 110 || ch.toNat = 78 then (pm.setSortColumn 1, true)
  else if ch.toNat = 114 || ch.toNat = 82 then ({ pm with reverse_sort := !pm.reverse_sort }, true)
  else (pm, true)

/-! ## Rendering: `printProcesses` -/

/-- The cells of one table row written by `printProcesses` (lines 292-300). -/
structure Row where
  pid : Int
  name : List Char
  state : List Char
  user : List Char
  cpu_percent : Double
  mem_percent : Double
  mem_rss : Int
  command : List Char
deriving DecidableEq, Repr

/-- The row of one process: `name.substr(0, 15)` and `user.substr(0, 7)` truncate. -/
def Row.ofProcess (proc : ProcessInfo) : Row :=
  ⟨proc.pid, proc.name.take 15, proc.state, proc.user.take 7, proc.cpu_percent,
    proc.mem_percent, proc.mem_rss, proc.name⟩

/-- The `for` loop of `printProcesses` from index `i` on, with bound
`std::min(max_rows, (int)processes.size())`; `none` when `processes[i]` is out of range or
the fuel runs out. -/
def printLoop (processes : List ProcessInfo) (bound : Int) : Nat → Nat → Option (List Row)
  | 0, _ => none
  | fuel + 1, i =>
    if (i : Int) < bound then
      match processes.get? i with
      | none => none
      | some proc => (printLoop processes bound fuel (i + 1)).map (fun rows => Row.ofProcess proc :: rows)
    else some []

/-- The method `printProcesses` (lines 284-302) on a terminal of `ws_row` rows: the rows it
writes, in order. -/
def ProcessManager.printProcesses (pm : ProcessManager) (ws_row : Nat) : Option (List Row) :=
  let max_rows : Int := (ws_row : Int) - 8
  printLoop pm.processes (min max_rows (toInt32 pm.processes.length)) (pm.processes.length + 1) 0

/-- The quotient `a / b` of two `long` values, truncated toward zero (`b ≠ 0`). -/
def longDiv (a b : Int) : Int :=
  if (a < 0) = (b < 0) then ((a.natAbs / b.natAbs : Nat) : Int)
  else -((a.natAbs / b.natAbs : Nat) : Int)

/-- What `printHeader` writes (`src/process-manager.cpp` lines 240-282): the numbers of the
summary line, the cells of the two bars (`true` for a filled cell), the memory percentage
printed after the memory bar, and the length of the rule under the column headers. -/
structure Header where
  cpu_percent : Double
  used_mb : Int
  total_mb : Int
  total_processes : Int
  running_processes : Int
  cpu_bar : List Bool
  mem_bar : List Bool
  mem_usage : Double
  rule_width : Nat
deriving DecidableEq, Repr

/-- The loop `for (int i = 0; i < bar_width; i++)` that draws a bar: cell `i` is filled when
`i < filled`. -/
def barCells (bar_width : Nat) (filled : Int) : List Bool :=
  (List.range bar_width).map (fun i => decide ((i : Int) < filled))

/-- The expression `(int)(percent / 100.0 * bar_width)` with `bar_width = 50`. -/
def filledCells (percent : Double) : Option Int :=
  Double.toInt32 (Double.mul (Double.div percent Double.hundred) (Double.ofLong 50))

/-- The value of `mem_usage` on line 261: `(double)sys_info.used_mem / sys_info.total_mem *
100.0`, computed without a test of `total_mem`. -/
def ProcessManager.memUsage (pm : ProcessManager) : Double :=
  percentOf pm.sys_info.used_mem pm.sys_info.total_mem

/-- The method `printHeader` (lines 240-282) on a terminal of `ws_col` columns; `none` when a
conversion to `int` is undefined. -/
def ProcessManager.printHeader (pm : ProcessManager) (ws_col : Nat) : Option Header :=
  match filledCells pm.sys_info.cpu_percent, filledCells pm.memUsage with
  | some cpuFilled, some memFilled =>
    some
      { cpu_percent := pm.sys_info.cpu_percent
        used_mb := longDiv pm.sys_info.used_mem 1024
        total_mb := longDiv pm.sys_info.total_mem 1024
        total_processes := pm.sys_info.total_processes
        running_processes := pm.sys_info.running_processes
        cpu_bar := barCells 50 cpuFilled
        mem_bar := barCells 50 memFilled
        mem_usage := pm.memUsage
        rule_width := ws_col }
  | _, _ => none

/-! ## Sample inputs -/

/-- Three lines of a `/proc/meminfo`. -/
def sampleMeminfo : List (List Char) :=
  ["MemTotal:       16000000 kB".toList, "MemFree:         1000000 kB".toList,
    "MemAvailable:    4000000 kB".toList]

/-- A snapshot of the operating system in which `/proc/stat` starts with the given line and
no process is listed. -/
def systemFs (cpuLine : String) : ProcFs :=
  { meminfo := some sampleMeminfo, stat := some [cpuLine.toList], pidStat := fun _ => none,
    pidStatus := fun _ => none, procDir := some [], clk_tck := 100 }

/-- First system snapshot: 1000 ticks in total, 100 of them work. -/
def snapshot1 : ProcFs := systemFs "cpu  100 0 0 900 0 0 0 0 0 0"

/-- Second system snapshot: 2000 ticks in total, 400 of them work. -/
def snapshot2 : ProcFs := systemFs "cpu  400 0 0 1600 0 0 0 0 0 0"

/-- The system CPU percentage reported by the last of a series of `getSystemInfo` calls. -/
def systemCpuAfter : ProcessManager → List ProcFs → Option Double
  | _, [] => none
  | pm, [fs] => (pm.getSystemInfo fs).toOption.map (fun r => r.1.cpu_percent)
  | pm, fs :: rest =>
    match pm.getSystemInfo fs with
    | .ok (_, pm1) => systemCpuAfter pm1 rest
    | _ => none

/-- A `/proc/1234/stat` record: `cmajflt = 4`, `utime = 55`, `stime = 66`,
`num_threads = 1`, `starttime = 9999`. -/
def sampleStatLine : List Char :=
  ("1234 (bash) S 1 1234 1234 34816 1234 4194304 100 200 3 4 55 66 7 8 20 0 1 0 9999 " ++
    "12345678 900 18446744073709551615 1 1 0 0 0 0 0 0 0 0 0 0 17 3 0 0 0 0 0").toList

/-- Some lines of a `/proc/1234/status`. -/
def sampleStatus : List (List Char) :=
  ["Name:\tbash".toList, "State:\tS (sleeping)".toList, "Uid:\t1000\t1000\t1000\t1000".toList,
    "VmSize:\t   12056 kB".toList, "VmRSS:\t    3600 kB".toList]

/-- A snapshot of the operating system with the single process 1234. -/
def processFs (statLine : List Char) : ProcFs :=
  { meminfo := some sampleMeminfo
    stat := some ["cpu  400 0 0 1600 0 0 0 0 0 0".toList]
    pidStat := fun p => if p = 1234 then some [statLine] else none
    pidStatus := fun p => if p = 1234 then some sampleStatus else none
    procDir := some [⟨DT_DIR, "1234".toList⟩, ⟨8, "uptime".toList⟩]
    clk_tck := 100 }

/-- The fields of a sample that the `stat` record determines. -/
def statView (r : Outcome (ProcessInfo × ProcessManager)) :
    Option (List Char × List Char × Int × Int × Int × Int) :=
  r.toOption.map (fun x => (x.1.name, x.1.state, x.1.ppid, x.1.utime, x.1.stime, x.1.starttime))

/-- A manager whose cache holds `prev` for process 1234 and whose `sys_info` knows
`total_mem`. -/
def cachedManager (prev total_mem : Int) : ProcessManager :=
  { ProcessManager.init with
    prev_cpu_times := fun p => if p = 1234 then some prev else none
    sys_info := { SystemInfo.zeroed with total_mem := total_mem } }

/-- The sample the code takes of process 1234 from `processFs sampleStatLine` when the cache
holds 9 ticks and the system has 16000000 kB. -/
def sampledProcess : ProcessInfo :=
  { pid := 1234, name := "bash".toList, state := "S".toList, ppid := 1
    cpu_percent := Double.ofLong 50, mem_percent := percentOf 3600 16000000
    mem_rss := 3600, mem_vms := 12056, user := "1000".toList
    utime := 4, stime := 55, starttime := 1 }

/-- The manager after that sample. -/
def sampledManager : ProcessManager :=
  { cachedManager 9 16000000 with
    prev_cpu_times := cacheStore (cachedManager 9 16000000).prev_cpu_times 1234 (4 + 55) }

/-- The snapshot `processFs sampleStatLine` for a kernel thread: its `status` file has no
`VmRSS` line. -/
def kernelThreadFs : ProcFs :=
  { processFs sampleStatLine with
    pidStatus := fun p =>
      if p = 1234 then some ["Name:\tkworker/0:1".toList, "Uid:\t0\t0\t0\t0".toList] else none }

/-- The resident size and memory percentage of a sample. -/
def memView (r : Outcome (ProcessInfo × ProcessManager)) : Option (Int × Double) :=
  r.toOption.map (fun x => (x.1.mem_rss, x.1.mem_percent))

/-- The process list and the total memory after a scan. -/
def scanView (r : Outcome ProcessManager) : Option (List ProcessInfo × Int) :=
  r.toOption.map (fun pm => (pm.processes, pm.sys_info.total_mem))

/-- Seventeen idle processes, pids 1 to 17, each with `cpu_percent = 0.0`. -/
def idleProcesses : List ProcessInfo :=
  (List.range 17).map (fun i =>
    { ProcessInfo.zeroed with pid := (i : Int) + 1, name := "sleep".toList, state := "S".toList })

/-- The manager as constructed (`sort_column = 4`, `reverse_sort = true`) holding the idle
processes. -/
def idleManager : ProcessManager := { ProcessManager.init with processes := idleProcesses }

/-- The pids of the list a sort leaves, if it is defined. -/
def sortedPids (r : Option ProcessManager) : Option (List Int) :=
  r.map (fun pm => pm.processes.map (fun p => p.pid))

/-- The comparison `comp` is a strict weak ordering on the values that satisfy `P`:
irreflexive, transitive, and negatively transitive. -/
structure StrictWeakOn {α : Type} (P : α → Prop) (comp : α → α → Bool) : Prop where
  irrefl : ∀ a, P a → comp a a = false
  trans : ∀ a b c, P a → P b → P c → comp a b = true → comp b c = true → comp a c = true
  negTrans : ∀ a b c, P a → P b → P c → comp a b = false → comp b c = false → comp a c = false

/-- A field that an integer extraction reads in full: a non-empty run of decimal digits
whose value is at most `hi`. -/
def IsNumber (hi : Nat) (t : List Char) : Prop :=
  t ≠ [] ∧ (∀ c ∈ t, isdigit c = true) ∧ digitsValue t ≤ hi

/-- A field that a string extraction reads in full: non-empty and free of whitespace. -/
def IsWord (t : List Char) : Prop :=
  t ≠ [] ∧ ∀ c ∈ t, isspace c = false

/-- A field that one `ignore(256, ' ')` passes over: shorter than 256 characters and without a
space. -/
def IsSkippable (t : List Char) : Prop :=
  t.length < 256 ∧ ∀ c ∈ t, c ≠ Char.ofNat 32

/-- Each field followed by one space. -/
def spaced : List (List Char) → List Char
  | [] => []
  | t :: ts => t ++ Char.ofNat 32 :: spaced ts

/-- The text of a `/proc/[pid]/stat` record, fields separated by single spaces: fields 1-4,
fields 5-12 (`pgrp` to `majflt`), field 13 (`cmajflt`), field 14 (`utime`), fields 15-19
(`stime` to `nice`), field 20 (`num_threads`), and the rest of the line (`itrealvalue`,
`starttime`, ...). -/
def statRecord (pid comm state ppid : List Char) (fields5to12 : List (List Char))
    (cmajflt utime : List Char) (fields15to19 : List (List Char)) (num_threads : List Char)
    (rest : List Char) : List Char :=
  pid ++ Char.ofNat 32 :: (comm ++ Char.ofNat 32 :: (state ++ Char.ofNat 32 ::
    (ppid ++ Char.ofNat 32 :: (spaced fields5to12 ++ (cmajflt ++ Char.ofNat 32 ::
      (utime ++ Char.ofNat 32 :: (spaced fields15to19 ++ (num_threads ++ rest))))))))

/-- A snapshot of the operating system in which `/proc/meminfo` cannot be read. -/
def noMeminfoFs : ProcFs := { processFs sampleStatLine with meminfo := none }

/-- The memory figures of `sys_info`, the value of `mem_usage` and the header after a scan. -/
def headerView (r : Outcome ProcessManager) (ws_col : Nat) :
    Option (Int × Int × Double × Option Header) :=
  r.toOption.map (fun pm =>
    (pm.sys_info.total_mem, pm.sys_info.used_mem, pm.memUsage, pm.printHeader ws_col))

/-- The number of filled cells of the memory bar of a header. -/
def memBarFilled (h : Option Header) : Option Nat :=
  h.map (fun x => x.mem_bar.count true)

/-- The cache entries of pids 1234 and 77 after a sample. -/
def cacheView (r : Outcome (ProcessInfo × ProcessManager)) :
    Option (Option Int × Option Int) :=
  r.toOption.map (fun x => (x.2.prev_cpu_times 1234, x.2.prev_cpu_times 77))

/-- The record `sampleStatLine` one cycle later: `utime` has grown from 55 to 80 and `stime`
from 66 to 91; `cmajflt` is still 4. -/
def laterStatLine : List Char :=
  ("1234 (bash) S 1 1234 1234 34816 1234 4194304 100 200 3 4 80 91 7 8 20 0 1 0 9999 " ++
    "12345678 900 18446744073709551615 1 1 0 0 0 0 0 0 0 0 0 0 17 3 0 0 0 0 0").toList

/-- The CPU percentage of the second of two consecutive samples of one pid, taken from the
snapshots `fs1` and then `fs2`. -/
def cpuOfSecondSample
    (sample : ProcessManager → ProcFs → Int → Outcome (ProcessInfo × ProcessManager))
    (pm : ProcessManager) (fs1 fs2 : ProcFs) (pid : Int) : Option Double :=
  match sample pm fs1 pid with
  | .ok (_, pm1) => (sample pm1 fs2 pid).toOption.map (fun r => r.1.cpu_percent)
  | _ => none

/-- A record whose fields 13 and 14 are `LONG_MAX` and 1: the extraction stores them as
`utime` and `stime`. -/
def longMaxStatLine : List Char :=
  ("1234 (bash) S 1 1234 1234 34816 1234 4194304 100 200 3 9223372036854775807 1 66 7 8 " ++
    "20 0 1 0 9999 12345678 900").toList

/-- A record whose fields 13 and 14 are both `LONG_MAX`. -/
def twiceLongMaxStatLine : List Char :=
  ("1234 (bash) S 1 1234 1234 34816 1234 4194304 100 200 3 9223372036854775807 " ++
    "9223372036854775807 66 7 8 20 0 1 0 9999 12345678 900").toList

/-! # Theorems -/

/-! ## Lemmas on binary64 arithmetic -/

theorem bitLength_spec : ∀ (fuel n : Nat), n < 2 ^ fuel → 0 < n →
    2 ^ (bitLength fuel n - 1) ≤ n ∧ n < 2 ^ bitLength fuel n := by
  intro fuel
  induction fuel with
  | zero => intro n h hn; simp at h; omega
  | succ f ih =>
    intro n h hn
    have hne : n ≠ 0 := by omega
    simp only [bitLength, hne, if_false, Nat.add_sub_cancel]
    by_cases h2 : n / 2 = 0
    · have h1 : n = 1 := by omega
      subst h1
      cases f <;> simp [bitLength]
    · have hlt : n / 2 < 2 ^ f := by
        rw [pow_succ] at h; omega
      obtain ⟨l, u⟩ := ih (n / 2) hlt (by omega)
      have hb : 0 < bitLength f (n / 2) := by
        cases f with
        | zero => simp at hlt; omega
        | succ g => simp [bitLength, h2]
      constructor
      · have : 2 ^ bitLength f (n / 2) = 2 ^ (bitLength f (n / 2) - 1) * 2 := by
          rw [← pow_succ]; congr 1; omega
        rw [this]; omega
      · rw [pow_succ]; omega

theorem floorLog2_spec (n : Nat) (hn : 0 < n) :
    2 ^ floorLog2 n ≤ n ∧ n < 2 ^ (floorLog2 n + 1) := by
  have h := bitLength_spec n n (Nat.lt_two_pow n) hn
  have hb : 0 < bitLength n n := by
    cases n with
    | zero => omega
    | succ m => simp [bitLength]
  unfold floorLog2
  refine ⟨h.1, ?_⟩
  have : bitLength n n - 1 + 1 = bitLength n n := by omega
  rw [this]; exact h.2

theorem two_zpow_split (z : Int) : (2 : ℚ) ^ z = (2 : ℚ) ^ z.toNat / (2 : ℚ) ^ (-z).toNat := by
  rcases le_total 0 z with h | h
  · have h1 : (-z).toNat = 0 := by omega
    rw [h1, pow_zero, div_one, ← zpow_natCast]
    congr 1; omega
  · have h1 : z.toNat = 0 := by omega
    rw [h1, pow_zero, one_div, ← zpow_natCast, ← zpow_neg]
    congr 1; omega

theorem scaled_lt_iff (z : Int) (u v : Nat) (hv : 0 < v) :
    u * 2 ^ (-z).toNat < v * 2 ^ z.toNat ↔ (u : ℚ) / v < (2 : ℚ) ^ z := by
  have hv' : (0 : ℚ) < v := by exact_mod_cast hv
  have hp : (0 : ℚ) < (2 : ℚ) ^ (-z).toNat := by positivity
  rw [two_zpow_split, div_lt_div_iff₀ hv' hp, mul_comm ((2 : ℚ) ^ z.toNat) (v : ℚ)]
  constructor
  · intro h; exact_mod_cast h
  · intro h; exact_mod_cast h

theorem scaled_le_iff (z : Int) (u v : Nat) (hv : 0 < v) :
    v * 2 ^ z.toNat ≤ u * 2 ^ (-z).toNat ↔ (2 : ℚ) ^ z ≤ (u : ℚ) / v := by
  have h := scaled_lt_iff z u v hv
  rw [← not_lt, h, not_lt]

theorem ilog2Quot_spec (n d : Nat) (hn : 0 < n) (hd : 0 < d) :
    (2 : ℚ) ^ ilog2Quot n d ≤ (n : ℚ) / d ∧ (n : ℚ) / d < (2 : ℚ) ^ (ilog2Quot n d + 1) := by
  obtain ⟨na, nb⟩ := floorLog2_spec n hn
  obtain ⟨da, db⟩ := floorLog2_spec d hd
  have hd' : (0 : ℚ) < d := by exact_mod_cast hd
  have na' : (2 : ℚ) ^ (floorLog2 n : Int) ≤ n := by rw [zpow_natCast]; exact_mod_cast na
  have nb' : (n : ℚ) < (2 : ℚ) ^ ((floorLog2 n : Int) + 1) := by
    have : ((floorLog2 n : Int) + 1) = ((floorLog2 n + 1 : Nat) : Int) := by push_cast; ring
    rw [this, zpow_natCast]; exact_mod_cast nb
  have da' : (2 : ℚ) ^ (floorLog2 d : Int) ≤ d := by rw [zpow_natCast]; exact_mod_cast da
  have db' : (d : ℚ) < (2 : ℚ) ^ ((floorLog2 d : Int) + 1) := by
    have : ((floorLog2 d : Int) + 1) = ((floorLog2 d + 1 : Nat) : Int) := by push_cast; ring
    rw [this, zpow_natCast]; exact_mod_cast db
  have h2 : (0 : ℚ) < 2 := by norm_num
  have hlow : (2 : ℚ) ^ ((floorLog2 n : Int) - (floorLog2 d : Int) - 1) ≤ (n : ℚ) / d := by
    rw [le_div_iff₀ hd']
    calc (2 : ℚ) ^ ((floorLog2 n : Int) - (floorLog2 d : Int) - 1) * d
        ≤ (2 : ℚ) ^ ((floorLog2 n : Int) - (floorLog2 d : Int) - 1)
            * (2 : ℚ) ^ ((floorLog2 d : Int) + 1) :=
          mul_le_mul_of_nonneg_left db'.le (by positivity)
      _ = (2 : ℚ) ^ (floorLog2 n : Int) := by
          rw [← zpow_add₀ (by norm_num : (2 : ℚ) ≠ 0)]; congr 1; ring
      _ ≤ n := na'
  have hhigh : (n : ℚ) / d < (2 : ℚ) ^ ((floorLog2 n : Int) - (floorLog2 d : Int) + 1) := by
    rw [div_lt_iff₀ hd']
    calc (n : ℚ) < (2 : ℚ) ^ ((floorLog2 n : Int) + 1) := nb'
      _ = (2 : ℚ) ^ ((floorLog2 n : Int) - (floorLog2 d : Int) + 1)
            * (2 : ℚ) ^ (floorLog2 d : Int) := by
          rw [← zpow_add₀ (by norm_num : (2 : ℚ) ≠ 0)]; congr 1; ring
      _ ≤ (2 : ℚ) ^ ((floorLog2 n : Int) - (floorLog2 d : Int) + 1) * d :=
          mul_le_mul_of_nonneg_left da' (by positivity)
  unfold ilog2Quot
  simp only
  split
  · rename_i h
    rw [scaled_lt_iff _ _ _ hd] at h
    refine ⟨hlow, ?_⟩
    simpa using h
  · rename_i h
    rw [scaled_lt_iff _ _ _ hd, not_lt] at h
    exact ⟨h, hhigh⟩

theorem roundHalfEven_spec (n d : Nat) (hd : 0 < d) :
    2 * (roundHalfEven n d * d) ≤ 2 * n + d ∧ 2 * n ≤ 2 * (roundHalfEven n d * d) + d := by
  have h1 := Nat.div_add_mod n d
  have h2 := Nat.mod_lt n hd
  have h3 : d * (n / d) = n / d * d := Nat.mul_comm _ _
  unfold roundHalfEven
  simp only
  split
  · constructor <;> omega
  · split
    · rw [Nat.add_mul]; constructor <;> omega
    · split
      · constructor <;> omega
      · rw [Nat.add_mul]; constructor <;> omega

theorem roundHalfEven_ge (n d L : Nat) (hd : 0 < d) (h : L * d ≤ n) : L ≤ roundHalfEven n d := by
  have hq : L ≤ n / d := (Nat.le_div_iff_mul_le hd).2 h
  unfold roundHalfEven
  simp only
  split
  · exact hq
  · split
    · omega
    · split <;> omega

theorem roundHalfEven_le (n d U : Nat) (hd : 0 < d) (h : n < U * d) : roundHalfEven n d ≤ U := by
  have hq : n / d < U := (Nat.div_lt_iff_lt_mul hd).2 h
  unfold roundHalfEven
  simp only
  split
  · omega
  · split
    · omega
    · split <;> omega

theorem abs_sub_div_le_half (M N D : ℚ) (hD : 0 < D) (h1 : 2 * (M * D) ≤ 2 * N + D)
    (h2 : 2 * N ≤ 2 * (M * D) + D) : |M - N / D| ≤ 1 / 2 := by
  rw [abs_le]
  constructor
  · have : N / D ≤ M + 1 / 2 := by rw [div_le_iff₀ hD]; nlinarith
    linarith
  · have : M - 1 / 2 ≤ N / D := by rw [le_div_iff₀ hD]; nlinarith
    linarith

/-- The scaled numerator and denominator used by `roundPos` have quotient in `[2^52, 2^53)`. -/
theorem roundPos_scaled (n d : Nat) (hn : 0 < n) (hd : 0 < d) :
    let s : Int := 52 - ilog2Quot n d
    0 < d * 2 ^ (-s).toNat ∧
    2 ^ 52 * (d * 2 ^ (-s).toNat) ≤ n * 2 ^ s.toNat ∧
    n * 2 ^ s.toNat < 2 ^ 53 * (d * 2 ^ (-s).toNat) ∧
    ((n * 2 ^ s.toNat : Nat) : ℚ) / ((d * 2 ^ (-s).toNat : Nat) : ℚ) = (n : ℚ) / d * (2 : ℚ) ^ s := by
  intro s
  obtain ⟨lo, hi⟩ := ilog2Quot_spec n d hn hd
  have hd' : (0 : ℚ) < d := by exact_mod_cast hd
  have hD : 0 < d * 2 ^ (-s).toNat := Nat.mul_pos hd (by positivity)
  have hD' : (0 : ℚ) < ((d * 2 ^ (-s).toNat : Nat) : ℚ) := by exact_mod_cast hD
  have hq : ((n * 2 ^ s.toNat : Nat) : ℚ) / ((d * 2 ^ (-s).toNat : Nat) : ℚ)
      = (n : ℚ) / d * (2 : ℚ) ^ s := by
    rw [two_zpow_split s]; push_cast; field_simp
  have hs : (2 : ℚ) ^ s = (2 : ℚ) ^ (52 : Int) / (2 : ℚ) ^ ilog2Quot n d := by
    rw [← zpow_sub₀ (by norm_num : (2 : ℚ) ≠ 0)]
  have hk : (0 : ℚ) < (2 : ℚ) ^ ilog2Quot n d := by positivity
  have h1 : (2 : ℚ) ^ 52 ≤ (n : ℚ) / d * (2 : ℚ) ^ s := by
    rw [hs, ← mul_div_assoc, le_div_iff₀ hk]
    have := mul_le_mul_of_nonneg_left lo (by positivity : (0 : ℚ) ≤ (2 : ℚ) ^ (52 : Int))
    calc (2 : ℚ) ^ 52 * (2 : ℚ) ^ ilog2Quot n d
        = (2 : ℚ) ^ (52 : Int) * (2 : ℚ) ^ ilog2Quot n d := by norm_cast
      _ ≤ (2 : ℚ) ^ (52 : Int) * ((n : ℚ) / d) := this
      _ = (n : ℚ) / d * (2 : ℚ) ^ (52 : Int) := by ring
  have h2 : (n : ℚ) / d * (2 : ℚ) ^ s < (2 : ℚ) ^ 53 := by
    rw [hs, ← mul_div_assoc, div_lt_iff₀ hk]
    have := mul_lt_mul_of_pos_left hi (by positivity : (0 : ℚ) < (2 : ℚ) ^ (52 : Int))
    calc (n : ℚ) / d * (2 : ℚ) ^ (52 : Int)
        = (2 : ℚ) ^ (52 : Int) * ((n : ℚ) / d) := by ring
      _ < (2 : ℚ) ^ (52 : Int) * (2 : ℚ) ^ (ilog2Quot n d + 1) := this
      _ = (2 : ℚ) ^ 53 * (2 : ℚ) ^ ilog2Quot n d := by
          rw [zpow_add₀ (by norm_num : (2 : ℚ) ≠ 0)]; norm_num; ring
  refine ⟨hD, ?_, ?_, hq⟩
  · rw [← hq, le_div_iff₀ hD'] at h1
    exact_mod_cast h1
  · rw [← hq, div_lt_iff₀ hD'] at h2
    exact_mod_cast h2

/-- The significand chosen by `roundPos` has exactly 53 bits, and the value returned is within
half a unit in the last place of `n / d`. -/
theorem roundPos_spec (n d : Nat) (hn : 0 < n) (hd : 0 < d) :
    2 ^ 52 ≤ (roundPos n d).1 ∧ (roundPos n d).1 < 2 ^ 53 ∧
    |((roundPos n d).1 : ℚ) * (2 : ℚ) ^ (roundPos n d).2 - (n : ℚ) / d|
      ≤ (2 : ℚ) ^ (ilog2Quot n d - 53) := by
  obtain ⟨hD, lo, hi, hq⟩ := roundPos_scaled n d hn hd
  have hD' : (0 : ℚ) < ((d * 2 ^ (-(52 - ilog2Quot n d)).toNat : Nat) : ℚ) := by exact_mod_cast hD
  have mlo := roundHalfEven_ge _ _ (2 ^ 52) hD lo
  have mhi := roundHalfEven_le _ _ (2 ^ 53) hD hi
  obtain ⟨r1, r2⟩ := roundHalfEven_spec (n * 2 ^ (52 - ilog2Quot n d).toNat)
    (d * 2 ^ (-(52 - ilog2Quot n d)).toNat) hD
  -- the distance, before scaling back
  have hdist : |((roundHalfEven (n * 2 ^ (52 - ilog2Quot n d).toNat)
        (d * 2 ^ (-(52 - ilog2Quot n d)).toNat) : Nat) : ℚ)
      - (n : ℚ) / d * (2 : ℚ) ^ (52 - ilog2Quot n d)| ≤ 1 / 2 := by
    rw [← hq]
    have r1' : (2 : ℚ) * ((roundHalfEven (n * 2 ^ (52 - ilog2Quot n d).toNat)
        (d * 2 ^ (-(52 - ilog2Quot n d)).toNat) : Nat) * ((d * 2 ^ (-(52 - ilog2Quot n d)).toNat : Nat) : ℚ))
        ≤ 2 * ((n * 2 ^ (52 - ilog2Quot n d).toNat : Nat) : ℚ) + ((d * 2 ^ (-(52 - ilog2Quot n d)).toNat : Nat) : ℚ) := by
      exact_mod_cast r1
    have r2' : (2 : ℚ) * ((n * 2 ^ (52 - ilog2Quot n d).toNat : Nat) : ℚ)
        ≤ 2 * ((roundHalfEven (n * 2 ^ (52 - ilog2Quot n d).toNat)
        (d * 2 ^ (-(52 - ilog2Quot n d)).toNat) : Nat) * ((d * 2 ^ (-(52 - ilog2Quot n d)).toNat : Nat) : ℚ)) + ((d * 2 ^ (-(52 - ilog2Quot n d)).toNat : Nat) : ℚ) := by
      exact_mod_cast r2
    exact abs_sub_div_le_half _ _ _ hD' r1' r2'
  -- scaling back by 2 ^ (-s)
  have hval : ∀ m : Nat, |(m : ℚ) - (n : ℚ) / d * (2 : ℚ) ^ (52 - ilog2Quot n d)| ≤ 1 / 2 →
      |(m : ℚ) * (2 : ℚ) ^ (-(52 - ilog2Quot n d)) - (n : ℚ) / d|
        ≤ (2 : ℚ) ^ (ilog2Quot n d - 53) := by
    intro m hm
    have hp : (0 : ℚ) < (2 : ℚ) ^ (-(52 - ilog2Quot n d)) := by positivity
    have e1 : (m : ℚ) * (2 : ℚ) ^ (-(52 - ilog2Quot n d)) - (n : ℚ) / d
        = ((m : ℚ) - (n : ℚ) / d * (2 : ℚ) ^ (52 - ilog2Quot n d))
            * (2 : ℚ) ^ (-(52 - ilog2Quot n d)) := by
      rw [sub_mul, mul_assoc, ← zpow_add₀ (by norm_num : (2 : ℚ) ≠ 0)]
      simp
    have e2 : (2 : ℚ) ^ (ilog2Quot n d - 53) = 1 / 2 * (2 : ℚ) ^ (-(52 - ilog2Quot n d)) := by
      have : ilog2Quot n d - 53 = -1 + -(52 - ilog2Quot n d) := by ring
      rw [this, zpow_add₀ (by norm_num : (2 : ℚ) ≠ 0)]; norm_num
    rw [e1, abs_mul, abs_of_pos hp, e2]
    exact mul_le_mul_of_nonneg_right hm hp.le
  unfold roundPos
  simp only
  split
  · rename_i heq
    refine ⟨le_refl _, by norm_num, ?_⟩
    have := hval _ hdist
    rw [heq] at this
    have e3 : (((2 : Nat) ^ 52 : Nat) : ℚ) * (2 : ℚ) ^ (1 - (52 - ilog2Quot n d))
        = (((2 : Nat) ^ 53 : Nat) : ℚ) * (2 : ℚ) ^ (-(52 - ilog2Quot n d)) := by
      have : (1 : Int) - (52 - ilog2Quot n d) = 1 + -(52 - ilog2Quot n d) := by ring
      rw [this, zpow_add₀ (by norm_num : (2 : ℚ) ≠ 0)]; push_cast; ring
    rw [e3]; exact this
  · rename_i hne
    refine ⟨mlo, lt_of_le_of_ne mhi hne, hval _ hdist⟩

/-! ### Doubles: sign, finiteness and accuracy of the operations -/

theorem ofRatio_zero (neg : Bool) (d : Nat) (sh : Int) :
    Double.ofRatio neg 0 d sh = .finite 0 0 := by
  simp [Double.ofRatio]

theorem ofRatio_pos (neg : Bool) (n d : Nat) (sh : Int) (hn : 0 < n) :
    Double.ofRatio neg n d sh
      = .finite (if neg then -((roundPos n d).1 : Int) else ((roundPos n d).1 : Int))
          ((roundPos n d).2 + sh) := by
  have : n ≠ 0 := by omega
  simp [Double.ofRatio, this]

/-- The exact value that `Double.ofRatio` rounds. -/
theorem ofRatio_toRat (neg : Bool) (n d : Nat) (sh : Int) (hd : 0 < d) :
    |(Double.ofRatio neg n d sh).toRat
        - (if neg then -1 else 1) * ((n : ℚ) / d * (2 : ℚ) ^ sh)|
      ≤ (n : ℚ) / d * (2 : ℚ) ^ sh / 2 ^ 53 := by
  rcases Nat.eq_zero_or_pos n with h0 | hn
  · subst h0; simp [ofRatio_zero, Double.toRat]
  · obtain ⟨_, _, herr⟩ := roundPos_spec n d hn hd
    obtain ⟨lo, _⟩ := ilog2Quot_spec n d hn hd
    have hsh : (0 : ℚ) < (2 : ℚ) ^ sh := by positivity
    have hbound : (2 : ℚ) ^ (ilog2Quot n d - 53) ≤ (n : ℚ) / d / 2 ^ 53 := by
      rw [zpow_sub₀ (by norm_num : (2 : ℚ) ≠ 0)]
      have : (2 : ℚ) ^ (53 : Int) = 2 ^ 53 := by norm_cast
      rw [this]
      exact div_le_div_of_nonneg_right lo (by positivity)
    have key : |((roundPos n d).1 : ℚ) * (2 : ℚ) ^ ((roundPos n d).2 + sh)
        - (n : ℚ) / d * (2 : ℚ) ^ sh| ≤ (n : ℚ) / d * (2 : ℚ) ^ sh / 2 ^ 53 := by
      have e1 : ((roundPos n d).1 : ℚ) * (2 : ℚ) ^ ((roundPos n d).2 + sh)
          - (n : ℚ) / d * (2 : ℚ) ^ sh
          = (((roundPos n d).1 : ℚ) * (2 : ℚ) ^ (roundPos n d).2 - (n : ℚ) / d) * (2 : ℚ) ^ sh := by
        rw [zpow_add₀ (by norm_num : (2 : ℚ) ≠ 0)]; ring
      rw [e1, abs_mul, abs_of_pos hsh]
      calc |((roundPos n d).1 : ℚ) * (2 : ℚ) ^ (roundPos n d).2 - (n : ℚ) / d| * (2 : ℚ) ^ sh
          ≤ ((n : ℚ) / d / 2 ^ 53) * (2 : ℚ) ^ sh :=
            mul_le_mul_of_nonneg_right (herr.trans hbound) hsh.le
        _ = (n : ℚ) / d * (2 : ℚ) ^ sh / 2 ^ 53 := by ring
    rw [ofRatio_pos neg n d sh hn]
    cases neg
    · simpa [Double.toRat] using key
    · simp only [Double.toRat, if_true]
      have e2 : ((-((roundPos n d).1 : Int) : Int) : ℚ) * (2 : ℚ) ^ ((roundPos n d).2 + sh)
          - -1 * ((n : ℚ) / d * (2 : ℚ) ^ sh)
          = -(((roundPos n d).1 : ℚ) * (2 : ℚ) ^ ((roundPos n d).2 + sh)
              - (n : ℚ) / d * (2 : ℚ) ^ sh) := by
        push_cast; ring
      rw [e2, abs_neg]; exact key

theorem roundPos_fst_pos (n d : Nat) (hn : 0 < n) (hd : 0 < d) : 0 < (roundPos n d).1 := by
  have := (roundPos_spec n d hn hd).1
  have h2 : 0 < 2 ^ 52 := by positivity
  omega

theorem ofRatio_isFinite (neg : Bool) (n d : Nat) (sh : Int) :
    (Double.ofRatio neg n d sh).IsFinite := by
  unfold Double.ofRatio; split <;> simp [Double.IsFinite]

theorem ofRatio_isNonneg (n d : Nat) (sh : Int) : (Double.ofRatio false n d sh).IsNonneg := by
  unfold Double.ofRatio; split <;> simp [Double.IsNonneg]

theorem ofRatio_isNonzero (neg : Bool) (n d : Nat) (sh : Int) (hn : 0 < n) (hd : 0 < d) :
    (Double.ofRatio neg n d sh).IsNonzeroFinite := by
  rw [ofRatio_pos neg n d sh hn]
  have := roundPos_fst_pos n d hn hd
  cases neg <;> simp [Double.IsNonzeroFinite] <;> omega

theorem ofLong_isNonneg (x : Int) (hx : 0 ≤ x) : (Double.ofLong x).IsNonneg := by
  unfold Double.ofLong
  have : decide (x < 0) = false := by simp; omega
  rw [this]; exact ofRatio_isNonneg _ _ _

theorem ofLong_isNonzero (x : Int) (hx : x ≠ 0) : (Double.ofLong x).IsNonzeroFinite := by
  unfold Double.ofLong
  exact ofRatio_isNonzero _ _ _ _ (by omega) (by norm_num)

theorem ofLong_pos (x : Int) (hx : 0 < x) :
    (Double.ofLong x).IsNonneg ∧ (Double.ofLong x).IsNonzeroFinite :=
  ⟨ofLong_isNonneg x hx.le, ofLong_isNonzero x (by omega)⟩

theorem div_isNonneg (a b : Double) (ha : a.IsNonneg) (hb : b.IsNonneg)
    (hb0 : b.IsNonzeroFinite) : (a.div b).IsNonneg := by
  cases a with
  | finite m1 e1 =>
    cases b with
    | finite m2 e2 =>
      simp only [Double.IsNonneg, Double.IsNonzeroFinite] at ha hb hb0
      have h1 : decide (m1 < 0) = false := by simp; omega
      have h2 : decide (m2 < 0) = false := by simp; omega
      simp only [Double.div, hb0, if_false, h1, h2]
      exact ofRatio_isNonneg _ _ _
    | inf s => simp [Double.IsNonneg] at hb
    | nan => simp [Double.IsNonneg] at hb
  | inf s => simp [Double.IsNonneg] at ha
  | nan => simp [Double.IsNonneg] at ha

theorem mul_isNonneg (a b : Double) (ha : a.IsNonneg) (hb : b.IsNonneg) :
    (a.mul b).IsNonneg := by
  cases a with
  | finite m1 e1 =>
    cases b with
    | finite m2 e2 =>
      simp only [Double.IsNonneg] at ha hb
      have h1 : decide (m1 < 0) = false := by simp; omega
      have h2 : decide (m2 < 0) = false := by simp; omega
      simp only [Double.mul, h1, h2]
      exact ofRatio_isNonneg _ _ _
    | inf s => simp [Double.IsNonneg] at hb
    | nan => simp [Double.IsNonneg] at hb
  | inf s => simp [Double.IsNonneg] at ha
  | nan => simp [Double.IsNonneg] at ha

theorem ge_zero_of_isNonneg (a : Double) (ha : a.IsNonneg) : Double.ge a Double.zero = true := by
  cases a with
  | finite m e =>
    simp only [Double.IsNonneg] at ha
    simp only [Double.ge, Double.zero, zero_mul, decide_eq_true_eq]
    positivity
  | inf s => simp [Double.IsNonneg] at ha
  | nan => simp [Double.IsNonneg] at ha

theorem isNonneg_of_ge_zero (a : Double) (ha : Double.ge a Double.zero = true) :
    a.IsNonneg ∨ a = .inf false := by
  cases a with
  | finite m e =>
    left
    simp only [Double.ge, Double.zero, zero_mul, decide_eq_true_eq] at ha
    simp only [Double.IsNonneg]
    by_contra hneg
    have hm : m < 0 := by omega
    have : m * 2 ^ (e - min e 0).toNat < 0 := mul_neg_of_neg_of_pos hm (by positivity)
    omega
  | inf s => cases s <;> simp_all [Double.ge, Double.zero]
  | nan => simp [Double.ge] at ha

theorem hundred_isNonneg : Double.hundred.IsNonneg := ofLong_isNonneg 100 (by norm_num)

theorem percentOf_isNonneg (x y : Int) (hx : 0 ≤ x) (hy : 0 < y) : (percentOf x y).IsNonneg := by
  unfold percentOf
  exact mul_isNonneg _ _
    (div_isNonneg _ _ (ofLong_isNonneg x hx) (ofLong_pos y hy).1 (ofLong_pos y hy).2)
    hundred_isNonneg

theorem minusOne_eq : Double.minusOne = .finite (-(2 ^ 52)) (-52) := by
  set_option maxRecDepth 100000 in decide

theorem ge_minusOne_zero : Double.ge Double.minusOne Double.zero = false := by
  rw [minusOne_eq]; decide

theorem percentOf_ne_minusOne (x y : Int) (hx : 0 ≤ x) (hy : 0 < y) :
    percentOf x y ≠ Double.minusOne := by
  intro h
  have := ge_zero_of_isNonneg _ (percentOf_isNonneg x y hx hy)
  rw [h, ge_minusOne_zero] at this
  exact Bool.noConfusion this

/-! ### Accuracy of the operations -/

theorem roundHalfEven_one (n : Nat) : roundHalfEven n 1 = n := by
  simp [roundHalfEven, Nat.mod_one]

theorem signed_mul_abs (m1 m2 : Int) :
    (if xor (decide (m1 < 0)) (decide (m2 < 0)) then (-1 : ℚ) else 1)
        * (|(m1 : ℚ)| * |(m2 : ℚ)|) = (m1 : ℚ) * m2 := by
  rcases lt_or_le m1 0 with h1 | h1 <;> rcases lt_or_le m2 0 with h2 | h2
  · have a1 : (m1 : ℚ) < 0 := by exact_mod_cast h1
    have a2 : (m2 : ℚ) < 0 := by exact_mod_cast h2
    simp [h1, h2, abs_of_neg a1, abs_of_neg a2]
  · have a1 : (m1 : ℚ) < 0 := by exact_mod_cast h1
    have a2 : (0 : ℚ) ≤ m2 := by exact_mod_cast h2
    simp [h1, not_lt.2 h2, abs_of_neg a1, abs_of_nonneg a2]
  · have a1 : (0 : ℚ) ≤ m1 := by exact_mod_cast h1
    have a2 : (m2 : ℚ) < 0 := by exact_mod_cast h2
    simp [not_lt.2 h1, h2, abs_of_nonneg a1, abs_of_neg a2]
  · have a1 : (0 : ℚ) ≤ m1 := by exact_mod_cast h1
    have a2 : (0 : ℚ) ≤ m2 := by exact_mod_cast h2
    simp [not_lt.2 h1, not_lt.2 h2, abs_of_nonneg a1, abs_of_nonneg a2]

theorem signed_div_abs (m1 m2 : Int) :
    (if xor (decide (m1 < 0)) (decide (m2 < 0)) then (-1 : ℚ) else 1)
        * (|(m1 : ℚ)| / |(m2 : ℚ)|) = (m1 : ℚ) / m2 := by
  rcases lt_or_le m1 0 with h1 | h1 <;> rcases lt_or_le m2 0 with h2 | h2
  · have a1 : (m1 : ℚ) < 0 := by exact_mod_cast h1
    have a2 : (m2 : ℚ) < 0 := by exact_mod_cast h2
    simp [h1, h2, abs_of_neg a1, abs_of_neg a2]
  · have a1 : (m1 : ℚ) < 0 := by exact_mod_cast h1
    have a2 : (0 : ℚ) ≤ m2 := by exact_mod_cast h2
    simp [h1, not_lt.2 h2, abs_of_neg a1, abs_of_nonneg a2, neg_div]
  · have a1 : (0 : ℚ) ≤ m1 := by exact_mod_cast h1
    have a2 : (m2 : ℚ) < 0 := by exact_mod_cast h2
    simp [not_lt.2 h1, h2, abs_of_nonneg a1, abs_of_neg a2, div_neg]
  · have a1 : (0 : ℚ) ≤ m1 := by exact_mod_cast h1
    have a2 : (0 : ℚ) ≤ m2 := by exact_mod_cast h2
    simp [not_lt.2 h1, not_lt.2 h2, abs_of_nonneg a1, abs_of_nonneg a2]

/-- Conversion of an integer is accurate to a relative error of `2 ^ (-53)`. -/
theorem ofLong_toRat (x : Int) : |(Double.ofLong x).toRat - (x : ℚ)| ≤ |(x : ℚ)| / 2 ^ 53 := by
  have h := ofRatio_toRat (decide (x < 0)) x.natAbs 1 0 (by norm_num)
  have hx : (if decide (x < 0) then (-1 : ℚ) else 1) * |(x : ℚ)| = x := by
    rcases lt_or_le x 0 with h1 | h1
    · have a1 : (x : ℚ) < 0 := by exact_mod_cast h1
      simp [h1, abs_of_neg a1]
    · have a1 : (0 : ℚ) ≤ x := by exact_mod_cast h1
      simp [not_lt.2 h1, abs_of_nonneg a1]
  simp only [Nat.cast_natAbs, Int.cast_abs, Nat.cast_one, div_one, zpow_zero, mul_one] at h
  rw [hx] at h
  exact h

/-- Division is accurate to a relative error of `2 ^ (-53)`. -/
theorem div_toRat (a b : Double) (ha : a.IsFinite) (hb : b.IsNonzeroFinite) :
    (a.div b).IsFinite ∧
    |(a.div b).toRat - a.toRat / b.toRat| ≤ |a.toRat / b.toRat| / 2 ^ 53 := by
  cases a with
  | finite m1 e1 =>
    cases b with
    | finite m2 e2 =>
      simp only [Double.IsNonzeroFinite] at hb
      have hd : 0 < m2.natAbs := Int.natAbs_pos.2 hb
      have h := ofRatio_toRat (xor (decide (m1 < 0)) (decide (m2 < 0))) m1.natAbs m2.natAbs
        (e1 - e2) hd
      have hm2 : (m2 : ℚ) ≠ 0 := by exact_mod_cast hb
      have hq : (m1 : ℚ) * (2 : ℚ) ^ e1 / ((m2 : ℚ) * (2 : ℚ) ^ e2)
          = (m1 : ℚ) / m2 * (2 : ℚ) ^ (e1 - e2) := by
        rw [zpow_sub₀ (by norm_num : (2 : ℚ) ≠ 0)]
        field_simp
      simp only [Double.div, hb, if_false, Double.toRat]
      refine ⟨ofRatio_isFinite _ _ _ _, ?_⟩
      simp only [Nat.cast_natAbs, Int.cast_abs] at h
      rw [← mul_assoc, signed_div_abs] at h
      rw [hq, abs_mul, abs_div, abs_of_pos (by positivity : (0 : ℚ) < (2 : ℚ) ^ (e1 - e2))]
      exact h
    | inf s => simp [Double.IsNonzeroFinite] at hb
    | nan => simp [Double.IsNonzeroFinite] at hb
  | inf s => simp [Double.IsFinite] at ha
  | nan => simp [Double.IsFinite] at ha

/-- Multiplication is accurate to a relative error of `2 ^ (-53)`. -/
theorem mul_toRat (a b : Double) (ha : a.IsFinite) (hb : b.IsFinite) :
    (a.mul b).IsFinite ∧
    |(a.mul b).toRat - a.toRat * b.toRat| ≤ |a.toRat * b.toRat| / 2 ^ 53 := by
  cases a with
  | finite m1 e1 =>
    cases b with
    | finite m2 e2 =>
      have h := ofRatio_toRat (xor (decide (m1 < 0)) (decide (m2 < 0)))
        (m1.natAbs * m2.natAbs) 1 (e1 + e2) (by norm_num)
      have hq : (m1 : ℚ) * (2 : ℚ) ^ e1 * ((m2 : ℚ) * (2 : ℚ) ^ e2)
          = (m1 : ℚ) * m2 * (2 : ℚ) ^ (e1 + e2) := by
        rw [zpow_add₀ (by norm_num : (2 : ℚ) ≠ 0)]; ring
      simp only [Double.mul, Double.toRat]
      refine ⟨ofRatio_isFinite _ _ _ _, ?_⟩
      simp only [Nat.cast_mul, Nat.cast_natAbs, Int.cast_abs, Nat.cast_one, div_one] at h
      rw [← mul_assoc, signed_mul_abs] at h
      rw [hq, abs_mul, abs_mul, abs_of_pos (by positivity : (0 : ℚ) < (2 : ℚ) ^ (e1 + e2))]
      exact h
    | inf s => simp [Double.IsFinite] at hb
    | nan => simp [Double.IsFinite] at hb
  | inf s => simp [Double.IsFinite] at ha
  | nan => simp [Double.IsFinite] at ha

theorem isFinite_of_isNonzeroFinite (a : Double) (h : a.IsNonzeroFinite) : a.IsFinite := by
  cases a <;> simp_all [Double.IsFinite, Double.IsNonzeroFinite]

theorem toRat_ne_zero (a : Double) (h : a.IsNonzeroFinite) : a.toRat ≠ 0 := by
  cases a with
  | finite m e =>
    simp only [Double.IsNonzeroFinite] at h
    simp only [Double.toRat]
    have : (m : ℚ) ≠ 0 := by exact_mod_cast h
    positivity
  | inf s => simp [Double.IsNonzeroFinite] at h
  | nan => simp [Double.IsNonzeroFinite] at h

/-! ### Propagation of relative errors -/

theorem near_mono {ε δ a e : ℚ} (h : Near ε a e) (hle : ε ≤ δ) : Near δ a e :=
  le_trans h (mul_le_mul_of_nonneg_left hle (abs_nonneg e))

theorem near_trans {ε δ a b c : ℚ} (h1 : Near ε a b) (h2 : Near δ b c) (hε : 0 ≤ ε) :
    Near (ε + δ + ε * δ) a c := by
  unfold Near at *
  have hb : |b| ≤ |c| + |c| * δ := by
    have := abs_sub_abs_le_abs_sub b c
    linarith
  calc |a - c| = |(a - b) + (b - c)| := by ring_nf
    _ ≤ |a - b| + |b - c| := abs_add _ _
    _ ≤ |b| * ε + |c| * δ := add_le_add h1 h2
    _ ≤ (|c| + |c| * δ) * ε + |c| * δ := by
        have := mul_le_mul_of_nonneg_right hb hε
        linarith
    _ = |c| * (ε + δ + ε * δ) := by ring

theorem near_mul_const {ε a e : ℚ} (h : Near ε a e) (c : ℚ) : Near ε (a * c) (e * c) := by
  unfold Near at *
  have : a * c - e * c = (a - e) * c := by ring
  rw [this, abs_mul, abs_mul]
  calc |a - e| * |c| ≤ |e| * ε * |c| := mul_le_mul_of_nonneg_right h (abs_nonneg c)
    _ = |e| * |c| * ε := by ring

theorem near_quotient {ε δ a e b f : ℚ} (h1 : Near ε a e) (h2 : Near δ b f) (hε : 0 ≤ ε)
    (hδ0 : 0 ≤ δ) (hδ : δ < 1) (hf : f ≠ 0) (hb : b ≠ 0) : Near ((ε + δ) / (1 - δ)) (a / b) (e / f) := by
  unfold Near at *
  have hfpos : 0 < |f| := abs_pos.2 hf
  have hbpos : 0 < |b| := abs_pos.2 hb
  have h1δ : 0 < 1 - δ := by linarith
  have hbl : |f| * (1 - δ) ≤ |b| := by
    have := abs_sub_abs_le_abs_sub f b
    rw [abs_sub_comm] at this
    linarith
  have hnum : |a * f - e * b| ≤ |e| * |f| * (ε + δ) := by
    have e1 : a * f - e * b = (a - e) * f - e * (b - f) := by ring
    rw [e1]
    calc |(a - e) * f - e * (b - f)| ≤ |(a - e) * f| + |e * (b - f)| := abs_sub _ _
      _ = |a - e| * |f| + |e| * |b - f| := by rw [abs_mul, abs_mul]
      _ ≤ |e| * ε * |f| + |e| * (|f| * δ) :=
          add_le_add (mul_le_mul_of_nonneg_right h1 (abs_nonneg f))
            (mul_le_mul_of_nonneg_left h2 (abs_nonneg e))
      _ = |e| * |f| * (ε + δ) := by ring
  have e2 : a / b - e / f = (a * f - e * b) / (b * f) := by
    field_simp
    ring
  rw [e2, abs_div, abs_mul, abs_div, div_le_iff₀ (mul_pos hbpos hfpos)]
  have hεδ : 0 ≤ ε + δ := add_nonneg hε hδ0
  calc |a * f - e * b| ≤ |e| * |f| * (ε + δ) := hnum
    _ = |e| / |f| * ((ε + δ) / (1 - δ)) * (|f| * (1 - δ) * |f|) := by
        field_simp; ring
    _ ≤ |e| / |f| * ((ε + δ) / (1 - δ)) * (|b| * |f|) := by
        apply mul_le_mul_of_nonneg_left
        · exact mul_le_mul_of_nonneg_right hbl (abs_nonneg f)
        · exact mul_nonneg (div_nonneg (abs_nonneg e) (abs_nonneg f))
            (div_nonneg hεδ h1δ.le)

theorem near_ofLong (x : Int) : Near (1 / 2 ^ 53) (Double.ofLong x).toRat (x : ℚ) := by
  unfold Near
  rw [mul_one_div]
  exact ofLong_toRat x

theorem near_div (a b : Double) (ha : a.IsFinite) (hb : b.IsNonzeroFinite) :
    Near (1 / 2 ^ 53) (a.div b).toRat (a.toRat / b.toRat) := by
  unfold Near
  rw [mul_one_div]
  exact (div_toRat a b ha hb).2

theorem near_mul (a b : Double) (ha : a.IsFinite) (hb : b.IsFinite) :
    Near (1 / 2 ^ 53) (a.mul b).toRat (a.toRat * b.toRat) := by
  unfold Near
  rw [mul_one_div]
  exact (mul_toRat a b ha hb).2

theorem ofLong_isFinite (x : Int) : (Double.ofLong x).IsFinite := ofRatio_isFinite _ _ _ _

theorem hundred_toRat : Double.hundred.toRat = 100 := by
  have : Double.hundred = .finite 7036874417766400 (-46) := by
    set_option maxRecDepth 100000 in decide
  rw [this]
  simp only [Double.toRat]
  norm_num [zpow_neg]

/-- The expression `(double)x / y * 100.0` is within a relative error of `2 ^ (-50)` of the
exact quotient `x / y * 100`. -/
theorem percentOf_accurate (x y : Int) (hy : y ≠ 0) :
    (percentOf x y).IsFinite ∧
    |(percentOf x y).toRat - (x : ℚ) / y * 100| ≤ |(x : ℚ) / y * 100| / 2 ^ 50 := by
  have hyq : (y : ℚ) ≠ 0 := by exact_mod_cast hy
  have hynz := ofLong_isNonzero y hy
  have hd := div_toRat (Double.ofLong x) (Double.ofLong y) (ofLong_isFinite x) hynz
  have hm := mul_toRat ((Double.ofLong x).div (Double.ofLong y)) Double.hundred hd.1
    (ofLong_isFinite 100)
  refine ⟨hm.1, ?_⟩
  -- the quotient of the converted operands against the exact quotient
  have n1 := near_quotient (near_ofLong x) (near_ofLong y) (by norm_num) (by norm_num)
    (by norm_num) hyq (toRat_ne_zero _ hynz)
  -- the rounded quotient
  have n2 := near_trans (near_div _ _ (ofLong_isFinite x) hynz) n1 (by norm_num)
  -- times one hundred
  have n3 := near_mul_const n2 100
  -- the rounded product
  have n4 := near_mul ((Double.ofLong x).div (Double.ofLong y)) Double.hundred hd.1
    (ofLong_isFinite 100)
  rw [hundred_toRat] at n4
  have n5 := near_mono (near_trans n4 n3 (by norm_num)) (by norm_num : _ ≤ (1 : ℚ) / 2 ^ 50)
  unfold Near at n5
  unfold percentOf
  rw [mul_one_div] at n5
  exact n5

/-! ## Lemmas on the sampling code -/

theorem applyStat_metrics (proc p1 : ProcessInfo) (line : List Char)
    (h : applyStat proc line = .ok p1) :
    p1.cpu_percent = proc.cpu_percent ∧ p1.mem_percent = proc.mem_percent
      ∧ p1.mem_rss = proc.mem_rss := by
  unfold applyStat at h
  simp only at h
  split at h
  · exact Outcome.noConfusion h
  · split at h
    · injection h with h; subst h; exact ⟨rfl, rfl, rfl⟩
    · exact Outcome.noConfusion h

theorem statusLine_metrics (proc p1 : ProcessInfo) (line : List Char)
    (h : statusLine proc line = some p1) :
    p1.cpu_percent = proc.cpu_percent ∧ p1.mem_percent = proc.mem_percent
      ∧ p1.name = proc.name ∧ p1.utime = proc.utime ∧ p1.stime = proc.stime := by
  unfold statusLine at h
  split at h
  · injection h with h; subst h; exact ⟨rfl, rfl, rfl, rfl, rfl⟩
  · split at h
    · injection h with h; subst h; exact ⟨rfl, rfl, rfl, rfl, rfl⟩
    · split at h
      · simp only at h
        split at h
        · exact Option.noConfusion h
        · injection h with h; subst h; exact ⟨rfl, rfl, rfl, rfl, rfl⟩
      · injection h with h; subst h; exact ⟨rfl, rfl, rfl, rfl, rfl⟩

theorem foldl_bind_none {α β : Type} (f : α → β → Option α) (l : List β) :
    l.foldl (fun acc x => acc.bind (fun a => f a x)) none = none := by
  induction l with
  | nil => rfl
  | cons x l ih => simpa using ih

theorem readStatus_metrics (lines : List (List Char)) :
    ∀ (proc p1 : ProcessInfo), readStatus proc lines = some p1 →
      p1.cpu_percent = proc.cpu_percent ∧ p1.mem_percent = proc.mem_percent
        ∧ p1.name = proc.name ∧ p1.utime = proc.utime ∧ p1.stime = proc.stime := by
  induction lines with
  | nil =>
    intro proc p1 h
    simp only [readStatus, List.foldl_nil, Option.some.injEq] at h
    subst h; exact ⟨rfl, rfl, rfl, rfl, rfl⟩
  | cons line rest ih =>
    intro proc p1 h
    simp only [readStatus, List.foldl_cons, Option.some_bind] at h
    cases hl : statusLine proc line with
    | none =>
      rw [hl, foldl_bind_none] at h
      exact Option.noConfusion h
    | some p2 =>
      rw [hl] at h
      obtain ⟨a1, a2, a3, a4, a5⟩ := statusLine_metrics proc p2 line hl
      obtain ⟨b1, b2, b3, b4, b5⟩ := ih p2 p1 h
      exact ⟨b1.trans a1, b2.trans a2, b3.trans a3, b4.trans a4, b5.trans a5⟩

/-- A successful sample of `src/src/process-manager.cpp` is `rateProcess` applied to a record
that still carries both sentinels. -/
theorem src_getProcessInfo_ok (pm : ProcessManager) (fs : ProcFs) (pid : Int)
    (r : ProcessInfo × ProcessManager)
    (h : SrcProcessManager.getProcessInfo pm fs pid = .ok r) :
    ∃ p, r = rateProcess pm fs pid p ∧ p.cpu_percent = Double.minusOne
      ∧ p.mem_percent = Double.minusOne := by
  unfold SrcProcessManager.getProcessInfo at h
  simp only at h
  split at h
  · exact Outcome.noConfusion h
  · split at h
    · exact Outcome.noConfusion h
    · split at h
      · exact Outcome.noConfusion h
      · exact Outcome.noConfusion h
      · rename_i proc1 hstat
        split at h
        · exact Outcome.noConfusion h
        · split at h
          · exact Outcome.noConfusion h
          · rename_i proc2 hstatus
            injection h with h
            obtain ⟨a1, a2, _⟩ := applyStat_metrics _ _ _ hstat
            obtain ⟨b1, b2, _⟩ := readStatus_metrics _ _ _ hstatus
            exact ⟨proc2, h.symm, b1.trans a1, b2.trans a2⟩

/-- A successful sample of `src/process-manager.cpp` is `rateProcess` applied to a record
whose percentages are still the zeros of `proc = {}`. -/
theorem root_getProcessInfo_ok (pm : ProcessManager) (fs : ProcFs) (pid : Int)
    (r : ProcessInfo × ProcessManager)
    (h : pm.getProcessInfo fs pid = .ok r) :
    ∃ p, r = rateProcess pm fs pid p ∧ p.cpu_percent = Double.zero
      ∧ p.mem_percent = Double.zero := by
  unfold ProcessManager.getProcessInfo at h
  simp only at h
  split at h
  · exact Outcome.noConfusion h
  · exact Outcome.noConfusion h
  · rename_i proc1 hstat
    split at h
    · exact Outcome.noConfusion h
    · rename_i proc2 hstatus
      injection h with h
      obtain ⟨b1, b2, _⟩ := readStatus_metrics _ _ _ hstatus
      have hz : proc1.cpu_percent = Double.zero ∧ proc1.mem_percent = Double.zero := by
        split at hstat
        · obtain ⟨a1, a2, _⟩ := applyStat_metrics _ _ _ hstat
          exact ⟨a1, a2⟩
        · injection hstat with hstat; subst hstat; exact ⟨rfl, rfl⟩
      exact ⟨proc2, h.symm, b1.trans hz.1, b2.trans hz.2⟩

theorem wrapLong_eq (x : Int) (h1 : -(2 ^ 63) ≤ x) (h2 : x < 2 ^ 63) : wrapLong x = x := by
  unfold wrapLong
  have h3 : (x + 2 ^ 63) % 2 ^ 64 = x + 2 ^ 63 :=
    Int.emod_eq_of_lt (by omega) (by omega)
  rw [h3]; ring

theorem rateProcess_fields (pm : ProcessManager) (fs : ProcFs) (pid : Int) (p : ProcessInfo) :
    (rateProcess pm fs pid p).1.utime = p.utime ∧ (rateProcess pm fs pid p).1.stime = p.stime
      ∧ (rateProcess pm fs pid p).1.mem_rss = p.mem_rss
      ∧ (rateProcess pm fs pid p).1.name = p.name
      ∧ (rateProcess pm fs pid p).2.processes = pm.processes
      ∧ (rateProcess pm fs pid p).2.sys_info = pm.sys_info := by
  unfold rateProcess
  cases pm.prev_cpu_times pid <;> by_cases h : pm.sys_info.total_mem > 0 <;> simp [h]

theorem rateProcess_cpu_some (pm : ProcessManager) (fs : ProcFs) (pid : Int) (p : ProcessInfo)
    (prev : Int) (h : pm.prev_cpu_times pid = some prev) :
    (rateProcess pm fs pid p).1.cpu_percent
      = percentOf (wrapLong (wrapLong (p.utime + p.stime) - prev)) fs.clk_tck := by
  unfold rateProcess
  simp only [h]
  split <;> rfl

theorem rateProcess_cpu_none (pm : ProcessManager) (fs : ProcFs) (pid : Int) (p : ProcessInfo)
    (h : pm.prev_cpu_times pid = none) :
    (rateProcess pm fs pid p).1.cpu_percent = p.cpu_percent := by
  unfold rateProcess
  simp only [h]
  split <;> rfl

theorem rateProcess_mem_pos (pm : ProcessManager) (fs : ProcFs) (pid : Int) (p : ProcessInfo)
    (h : 0 < pm.sys_info.total_mem) :
    (rateProcess pm fs pid p).1.mem_percent = percentOf p.mem_rss pm.sys_info.total_mem := by
  unfold rateProcess
  have h' : pm.sys_info.total_mem > 0 := h
  simp only [h', if_true]
  cases pm.prev_cpu_times pid <;> rfl

theorem rateProcess_mem_nonpos (pm : ProcessManager) (fs : ProcFs) (pid : Int) (p : ProcessInfo)
    (h : pm.sys_info.total_mem ≤ 0) :
    (rateProcess pm fs pid p).1.mem_percent = p.mem_percent := by
  unfold rateProcess
  have h' : ¬ pm.sys_info.total_mem > 0 := not_lt.2 h
  simp only [h', if_false]
  cases pm.prev_cpu_times pid <;> rfl

theorem rateProcess_cache (pm : ProcessManager) (fs : ProcFs) (pid : Int) (p : ProcessInfo) :
    (rateProcess pm fs pid p).2.prev_cpu_times
      = cacheStore pm.prev_cpu_times pid (wrapLong (p.utime + p.stime)) := by
  unfold rateProcess
  rfl

/-! ## C1: system CPU percentage -/

/-- What lines 111-115 compute: with a stored total `prev > 0` and a larger new total, the
reported percentage is `(work + idle - prev) / (total - prev) * 100`: the stored *total*
minus the *current* idle count stands where the previous work count should. -/
theorem cpuUsage_formula (prev : Int) (t : CpuTicks) (info : SystemInfo) (hprev : 0 < prev)
    (htotal : prev < t.total) :
    (cpuUsage prev t info).cpu_percent = percentOf (t.work + t.idle - prev) (t.total - prev) := by
  have h1 : prev > 0 := hprev
  have h2 : t.total - prev > 0 := by omega
  have h3 : t.work - (prev - t.idle) = t.work + t.idle - prev := by ring
  simp only [cpuUsage, h1, h2, if_true, percentOf, h3]

set_option maxRecDepth 100000 in
/-- C1 (code defect): two consecutive `/proc/stat` snapshots whose totals differ by 1000
ticks (1000 then 2000) and whose work ticks differ by 300 (100 then 400) make `getSystemInfo`
report 100.0, not the 30.0 that `Δwork / Δtotal * 100` gives. -/
theorem getSystemInfo_reports_100_for_30 :
    parseCpuLine "cpu  100 0 0 900 0 0 0 0 0 0".toList = some ⟨100, 0, 0, 900, 0, 0, 0, 0⟩
    ∧ parseCpuLine "cpu  400 0 0 1600 0 0 0 0 0 0".toList = some ⟨400, 0, 0, 1600, 0, 0, 0, 0⟩
    ∧ CpuTicks.total ⟨400, 0, 0, 1600, 0, 0, 0, 0⟩ - CpuTicks.total ⟨100, 0, 0, 900, 0, 0, 0, 0⟩
        = 1000
    ∧ CpuTicks.work ⟨400, 0, 0, 1600, 0, 0, 0, 0⟩ - CpuTicks.work ⟨100, 0, 0, 900, 0, 0, 0, 0⟩
        = 300
    ∧ systemCpuAfter ProcessManager.init [snapshot1, snapshot2] = some (Double.ofLong 100)
    ∧ percentOf 300 1000 = Double.ofLong 30
    ∧ Double.ofLong 100 ≠ Double.ofLong 30 := by
  decide

/-! ## C2: the `stat` record -/

set_option maxRecDepth 100000 in
/-- C2 (code defect): on a well-formed `stat` record with `cmajflt = 4`, `utime = 55`,
`stime = 66`, `num_threads = 1` and `starttime = 9999`, both versions of `getProcessInfo`
get name, state and parent right but store field 13 (`cmajflt`) as `utime`, field 14
(`utime`) as `stime` and field 20 (`num_threads`) as `starttime`. -/
theorem getProcessInfo_stat_fields_shifted :
    statView (ProcessManager.init.getProcessInfo (processFs sampleStatLine) 1234)
        = some ("bash".toList, "S".toList, 1, 4, 55, 1)
    ∧ statView (SrcProcessManager.getProcessInfo ProcessManager.init
          (processFs sampleStatLine) 1234)
        = some ("bash".toList, "S".toList, 1, 4, 55, 1) :=
  ⟨by decide, by decide⟩

/-! ## C3: per-process CPU percentage -/

/-- The CPU percentage a successful `getProcessInfo` (either source file) computes when the
cache holds `prev`: the double expression `(double)time_diff / clk * 100.0` over the `long`
values `total_time = utime + stime` and `time_diff = total_time - prev`. -/
theorem getProcessInfo_cpu_wrapped (pm : ProcessManager) (fs : ProcFs) (pid prev : Int)
    (proc : ProcessInfo) (pm1 : ProcessManager)
    (hprev : pm.prev_cpu_times pid = some prev)
    (hs : pm.getProcessInfo fs pid = .ok (proc, pm1)
      ∨ SrcProcessManager.getProcessInfo pm fs pid = .ok (proc, pm1)) :
    proc.cpu_percent
      = percentOf (wrapLong (wrapLong (proc.utime + proc.stime) - prev)) fs.clk_tck := by
  have hrate : ∃ p, (proc, pm1) = rateProcess pm fs pid p := by
    rcases hs with hs | hs
    · obtain ⟨p, hp, _⟩ := root_getProcessInfo_ok pm fs pid _ hs
      exact ⟨p, hp⟩
    · obtain ⟨p, hp, _⟩ := src_getProcessInfo_ok pm fs pid _ hs
      exact ⟨p, hp⟩
  obtain ⟨p, hp⟩ := hrate
  have hproc : proc = (rateProcess pm fs pid p).1 := congrArg Prod.fst hp
  obtain ⟨hu, hst, _⟩ := rateProcess_fields pm fs pid p
  rw [hproc, rateProcess_cpu_some pm fs pid p prev hprev, hu, hst]

/-- Lines 174-181 on the members `utime` and `stime` of the sample (whatever record fields the
extraction put there): when the cache holds `prev`, the clock rate is positive and neither
`utime + stime` nor its difference to `prev` overflows `long`, a successful `getProcessInfo`
(either source file) sets `cpu_percent` to `(double)(utime + stime - prev) / clk * 100.0`;
that value is within a relative error of `2 ^ (-50)` of the exact `Δ / clk * 100`, is
`>= 0.0` whenever `Δ ≥ 0`, and is exactly 50.0 for `Δ = 50` at 100 Hz. -/
theorem getProcessInfo_cpu_percent (pm : ProcessManager) (fs : ProcFs) (pid prev : Int)
    (proc : ProcessInfo) (pm1 : ProcessManager)
    (hprev : pm.prev_cpu_times pid = some prev) (hclk : 0 < fs.clk_tck)
    (hs : pm.getProcessInfo fs pid = .ok (proc, pm1)
      ∨ SrcProcessManager.getProcessInfo pm fs pid = .ok (proc, pm1))
    (hsum : -(2 ^ 63) ≤ proc.utime + proc.stime ∧ proc.utime + proc.stime < 2 ^ 63)
    (hdiff : -(2 ^ 63) ≤ proc.utime + proc.stime - prev
      ∧ proc.utime + proc.stime - prev < 2 ^ 63) :
    proc.cpu_percent = percentOf (proc.utime + proc.stime - prev) fs.clk_tck
    ∧ |proc.cpu_percent.toRat - ((proc.utime + proc.stime - prev : Int) : ℚ) / fs.clk_tck * 100|
        ≤ |((proc.utime + proc.stime - prev : Int) : ℚ) / fs.clk_tck * 100| / 2 ^ 50
    ∧ (0 ≤ proc.utime + proc.stime - prev → Double.ge proc.cpu_percent Double.zero = true)
    ∧ (proc.utime + proc.stime - prev = 50 → fs.clk_tck = 100 →
        proc.cpu_percent = Double.ofLong 50) := by
  have hcpu : proc.cpu_percent = percentOf (proc.utime + proc.stime - prev) fs.clk_tck := by
    rw [getProcessInfo_cpu_wrapped pm fs pid prev proc pm1 hprev hs,
      wrapLong_eq _ hsum.1 hsum.2, wrapLong_eq _ hdiff.1 hdiff.2]
  refine ⟨hcpu, ?_, ?_, ?_⟩
  · rw [hcpu]
    exact (percentOf_accurate _ _ (by omega)).2
  · intro hd
    rw [hcpu]
    exact ge_zero_of_isNonneg _ (percentOf_isNonneg _ _ hd hclk)
  · intro hd hc
    rw [hcpu, hd, hc]
    set_option maxRecDepth 100000 in decide

set_option maxRecDepth 100000 in
/-- An instance: process 1234 with 9 cached ticks, sampled at 4 + 55 ticks and 100 Hz. -/
theorem getProcessInfo_cpu_percent_instance :
    sampledProcess.cpu_percent = percentOf (4 + 55 - 9) 100
    ∧ Double.ge sampledProcess.cpu_percent Double.zero = true
    ∧ sampledProcess.cpu_percent = Double.ofLong 50 :=
  have h := getProcessInfo_cpu_percent (cachedManager 9 16000000) (processFs sampleStatLine)
    1234 9 sampledProcess sampledManager rfl (by decide) (Or.inr rfl)
    ⟨by decide, by decide⟩ ⟨by decide, by decide⟩
  ⟨h.1, h.2.2.1 (by decide), h.2.2.2 (by decide) rfl⟩

set_option maxRecDepth 100000 in
/-- C3 (code defect): process 1234 is sampled twice at 100 Hz; between the two records its
`utime` grows from 55 to 80 and its `stime` from 66 to 91, so `utime + stime` grows by 50
ticks, and `cmajflt` stays 4.  Both versions of `getProcessInfo` report 25.0, not 50.0: the
delta is taken over fields 13 and 14 (`cmajflt + utime`), which the extraction stored as
`utime` and `stime`. -/
theorem getProcessInfo_reports_25_for_50 :
    sampleStatLine = statRecord "1234".toList "(bash)".toList "S".toList "1".toList
        ["1234".toList, "1234".toList, "34816".toList, "1234".toList, "4194304".toList,
          "100".toList, "200".toList, "3".toList]
        "4".toList "55".toList
        ["66".toList, "7".toList, "8".toList, "20".toList, "0".toList]
        "1".toList
        (" 0 9999 12345678 900 18446744073709551615 1 1 0 0 0 0 0 0 0 0 0 0 17 3 0 0 0 0 0").toList
    ∧ laterStatLine = statRecord "1234".toList "(bash)".toList "S".toList "1".toList
        ["1234".toList, "1234".toList, "34816".toList, "1234".toList, "4194304".toList,
          "100".toList, "200".toList, "3".toList]
        "4".toList "80".toList
        ["91".toList, "7".toList, "8".toList, "20".toList, "0".toList]
        "1".toList
        (" 0 9999 12345678 900 18446744073709551615 1 1 0 0 0 0 0 0 0 0 0 0 17 3 0 0 0 0 0").toList
    ∧ ((digitsValue "80".toList + digitsValue "91".toList : Nat) : Int)
        - ((digitsValue "55".toList + digitsValue "66".toList : Nat) : Int) = 50
    ∧ (processFs laterStatLine).clk_tck = 100
    ∧ cpuOfSecondSample ProcessManager.getProcessInfo ProcessManager.init
        (processFs sampleStatLine) (processFs laterStatLine) 1234 = some (Double.ofLong 25)
    ∧ cpuOfSecondSample SrcProcessManager.getProcessInfo ProcessManager.init
        (processFs sampleStatLine) (processFs laterStatLine) 1234 = some (Double.ofLong 25)
    ∧ percentOf 50 100 = Double.ofLong 50
    ∧ Double.ofLong 25 ≠ Double.ofLong 50 :=
  ⟨by decide, by decide, by decide, by decide, by decide, by decide, by decide, by decide⟩

/-! ## C4: which samples reach the output list -/

theorem append_singleton_ne {α : Type} (l : List α) (a : α) : l ++ [a] ≠ l := by
  intro h
  have := congrArg List.length h
  simp at this

set_option maxRecDepth 100000 in
/-- C4 (counterexample): process 1234 has a cache entry (100 ticks, left by an earlier
process with the same pid), a non-empty name and the system has 16000000 kB, yet the scan of
`src/src/process-manager.cpp` leaves it out: its tick delta is negative. -/
theorem scanProcesses_omits_cached_process :
    (cachedManager 100 16000000).prev_cpu_times 1234 = some 100
    ∧ statView (SrcProcessManager.getProcessInfo (cachedManager 100 16000000)
          (processFs sampleStatLine) 1234)
        = some ("bash".toList, "S".toList, 1, 4, 55, 1)
    ∧ scanView (SrcProcessManager.scanProcesses (cachedManager 100 16000000)
          (processFs sampleStatLine))
        = some ([], 16000000) :=
  ⟨rfl, by decide, by decide⟩

set_option maxRecDepth 100000 in
/-- The scan of `src/process-manager.cpp` tests only the name: a process seen for the first
time is put on the list, with the CPU percentage 0.0 of `proc = {}`. -/
theorem root_scanProcesses_keeps_first_sample :
    (scanView (ProcessManager.init.scanProcesses (processFs sampleStatLine))).map
        (fun v => v.1.map (fun p => (p.name, p.cpu_percent)))
      = some [("bash".toList, Double.zero)] := by
  decide

/-- In `scanProcesses` of `src/process-manager.cpp` (line 206) a successfully sampled process is
appended to the list exactly when its name is non-empty, whatever the cache holds. -/
theorem root_scanEntry_appends_iff_named (pm : ProcessManager) (fs : ProcFs) (entry : Dirent)
    (pid : Int) (proc : ProcessInfo) (pm1 : ProcessManager)
    (hdir : entry.d_type = DT_DIR) (hdig : entry.d_name.all isdigit = true)
    (hpid : stoi entry.d_name = some pid)
    (hs : pm.getProcessInfo fs pid = .ok (proc, pm1)) :
    ∃ pm2, scanEntry ProcessManager.getProcessInfo ProcessManager.keeps fs pm entry = .ok pm2
      ∧ (pm2.processes = pm.processes ++ [proc] ∨ pm2.processes = pm.processes)
      ∧ (pm2.processes = pm.processes ++ [proc] ↔ proc.name ≠ []) := by
  obtain ⟨p, hp, _, _⟩ := root_getProcessInfo_ok pm fs pid _ hs
  have hpm1 : pm1 = (rateProcess pm fs pid p).2 := congrArg Prod.snd hp
  have hprocs1 : pm1.processes = pm.processes := by
    rw [hpm1]; exact (rateProcess_fields pm fs pid p).2.2.2.2.1
  have hd : (entry.d_type == DT_DIR) = true := by simp [hdir]
  have hkeeps : ProcessManager.keeps proc = true ↔ proc.name ≠ [] := by
    unfold ProcessManager.keeps
    simp only [Bool.not_eq_true', List.isEmpty_eq_false]
  by_cases hk : ProcessManager.keeps proc = true
  · refine ⟨{ pm1 with processes := pm1.processes ++ [proc] }, ?_, ?_, ?_⟩
    · simp [scanEntry, hd, hdig, hpid, hs, hk]
    · left; simp [hprocs1]
    · simp only [hprocs1, true_iff]; exact hkeeps.1 hk
  · refine ⟨pm1, ?_, ?_, ?_⟩
    · simp [scanEntry, hd, hdig, hpid, hs, hk]
    · right; exact hprocs1
    · rw [hprocs1]
      constructor
      · intro h; exact absurd h.symm (append_singleton_ne _ _)
      · intro h; exact absurd (hkeeps.2 h) hk

/-- C4 (amended): in `scanProcesses` of `src/src/process-manager.cpp`, a successfully sampled
process is appended to the list exactly when its name is non-empty, `cpu_percent >= 0.0` and
`mem_percent >= 0.0`.  Hence a process without a cache entry is never appended, an appended
process had a cache entry and a positive total memory, and a process with a cache entry, a
non-empty name, positive total memory, positive clock rate, a non-negative resident size and
a tick delta that is non-negative and computed without `long` overflow is appended.  In
`scanProcesses` of `src/process-manager.cpp` a successfully sampled process is appended
exactly when its name is non-empty. -/
theorem scanEntry_appends_iff_rated (pm : ProcessManager) (fs : ProcFs) (entry : Dirent)
    (pid : Int) (proc : ProcessInfo) (pm1 : ProcessManager)
    (hdir : entry.d_type = DT_DIR) (hdig : entry.d_name.all isdigit = true)
    (hpid : stoi entry.d_name = some pid)
    (hs : SrcProcessManager.getProcessInfo pm fs pid = .ok (proc, pm1)) :
    (∃ pm2, scanEntry SrcProcessManager.getProcessInfo SrcProcessManager.keeps fs pm entry
        = .ok pm2
      ∧ (pm2.processes = pm.processes ++ [proc] ∨ pm2.processes = pm.processes)
      ∧ (pm2.processes = pm.processes ++ [proc] ↔
          (proc.name ≠ [] ∧ Double.ge proc.cpu_percent Double.zero = true
            ∧ Double.ge proc.mem_percent Double.zero = true))
      ∧ (pm2.processes = pm.processes ++ [proc] →
          (∃ prev, pm.prev_cpu_times pid = some prev) ∧ 0 < pm.sys_info.total_mem)
      ∧ (pm.prev_cpu_times pid = none → pm2.processes = pm.processes)
      ∧ (∀ prev, pm.prev_cpu_times pid = some prev → proc.name ≠ [] →
          0 < pm.sys_info.total_mem → 0 < fs.clk_tck →
          (-(2 ^ 63) ≤ proc.utime + proc.stime ∧ proc.utime + proc.stime < 2 ^ 63) →
          prev ≤ proc.utime + proc.stime → proc.utime + proc.stime - prev < 2 ^ 63 →
          0 ≤ proc.mem_rss → pm2.processes = pm.processes ++ [proc]))
    ∧ (∀ proc0 pm0, pm.getProcessInfo fs pid = .ok (proc0, pm0) →
        ∃ pm3, scanEntry ProcessManager.getProcessInfo ProcessManager.keeps fs pm entry
            = .ok pm3
          ∧ (pm3.processes = pm.processes ++ [proc0] ∨ pm3.processes = pm.processes)
          ∧ (pm3.processes = pm.processes ++ [proc0] ↔ proc0.name ≠ [])) := by
  refine ⟨?_, fun proc0 pm0 h0 =>
    root_scanEntry_appends_iff_named pm fs entry pid proc0 pm0 hdir hdig hpid h0⟩
  obtain ⟨p, hp, hc, hm⟩ := src_getProcessInfo_ok pm fs pid _ hs
  have hproc : proc = (rateProcess pm fs pid p).1 := congrArg Prod.fst hp
  have hpm1 : pm1 = (rateProcess pm fs pid p).2 := congrArg Prod.snd hp
  obtain ⟨hu, hst, hrss, hname, hprocs, _⟩ := rateProcess_fields pm fs pid p
  have hprocs1 : pm1.processes = pm.processes := by rw [hpm1]; exact hprocs
  -- the test of line 197, spelled out
  have hkeeps : SrcProcessManager.keeps proc = true ↔
      (proc.name ≠ [] ∧ Double.ge proc.cpu_percent Double.zero = true
        ∧ Double.ge proc.mem_percent Double.zero = true) := by
    unfold SrcProcessManager.keeps
    simp only [Bool.and_eq_true, Bool.not_eq_true', List.isEmpty_eq_false, and_assoc]
  -- a kept process was rated
  have hrated : SrcProcessManager.keeps proc = true →
      (∃ prev, pm.prev_cpu_times pid = some prev) ∧ 0 < pm.sys_info.total_mem := by
    intro hk
    obtain ⟨_, hcpu, hmem⟩ := hkeeps.1 hk
    constructor
    · cases hcache : pm.prev_cpu_times pid with
      | some prev => exact ⟨prev, rfl⟩
      | none =>
        rw [hproc, rateProcess_cpu_none pm fs pid p hcache, hc, ge_minusOne_zero] at hcpu
        exact Bool.noConfusion hcpu
    · by_contra hneg
      rw [hproc, rateProcess_mem_nonpos pm fs pid p (not_lt.1 hneg), hm, ge_minusOne_zero] at hmem
      exact Bool.noConfusion hmem
  -- a rated process with sane counters is kept
  have hconv : ∀ prev, pm.prev_cpu_times pid = some prev → proc.name ≠ [] →
      0 < pm.sys_info.total_mem → 0 < fs.clk_tck →
      (-(2 ^ 63) ≤ proc.utime + proc.stime ∧ proc.utime + proc.stime < 2 ^ 63) →
      prev ≤ proc.utime + proc.stime → proc.utime + proc.stime - prev < 2 ^ 63 →
      0 ≤ proc.mem_rss → SrcProcessManager.keeps proc = true := by
    intro prev hcache hn htot hclk hsum hdelta hupper hr
    refine hkeeps.2 ⟨hn, ?_, ?_⟩
    · have : proc.cpu_percent = percentOf (proc.utime + proc.stime - prev) fs.clk_tck := by
        rw [getProcessInfo_cpu_wrapped pm fs pid prev proc pm1 hcache (Or.inr hs),
          wrapLong_eq _ hsum.1 hsum.2, wrapLong_eq _ (by omega) hupper]
      rw [this]
      exact ge_zero_of_isNonneg _ (percentOf_isNonneg _ _ (by omega) hclk)
    · have : proc.mem_percent = percentOf proc.mem_rss pm.sys_info.total_mem := by
        rw [hproc, rateProcess_mem_pos pm fs pid p htot, hrss]
      rw [this]
      exact ge_zero_of_isNonneg _ (percentOf_isNonneg _ _ hr htot)
  have hd : (entry.d_type == DT_DIR) = true := by simp [hdir]
  by_cases hk : SrcProcessManager.keeps proc = true
  · refine ⟨{ pm1 with processes := pm1.processes ++ [proc] }, ?_, ?_, ?_, ?_, ?_, ?_⟩
    · simp [scanEntry, hd, hdig, hpid, hs, hk]
    · left; simp [hprocs1]
    · simp only [hprocs1, true_iff]; exact hkeeps.1 hk
    · intro _; exact hrated hk
    · intro hnone
      obtain ⟨⟨prev, hprev⟩, _⟩ := hrated hk
      rw [hnone] at hprev
      exact Option.noConfusion hprev
    · intro _ _ _ _ _ _ _ _ _; simp [hprocs1]
  · refine ⟨pm1, ?_, ?_, ?_, ?_, ?_, ?_⟩
    · simp [scanEntry, hd, hdig, hpid, hs, hk]
    · right; exact hprocs1
    · rw [hprocs1]
      constructor
      · intro h; exact absurd h.symm (append_singleton_ne _ _)
      · intro h; exact absurd (hkeeps.2 h) hk
    · intro h
      rw [hprocs1] at h
      exact absurd h.symm (append_singleton_ne _ _)
    · intro _; exact hprocs1
    · intro prev h1 h2 h3 h4 h5 h6 h7 h8
      exact absurd (hconv prev h1 h2 h3 h4 h5 h6 h7 h8) hk

set_option maxRecDepth 100000 in
/-- Witness for C4: the directory entry `1234` with 9 cached ticks is appended. -/
theorem scanEntry_appends_iff_rated_witness :
    ∃ pm2, scanEntry SrcProcessManager.getProcessInfo SrcProcessManager.keeps
          (processFs sampleStatLine) (cachedManager 9 16000000) ⟨DT_DIR, "1234".toList⟩
        = .ok pm2
      ∧ pm2.processes = [sampledProcess] := by
  obtain ⟨⟨pm2, h1, _, _, _, _, h6⟩, _⟩ := scanEntry_appends_iff_rated
    (cachedManager 9 16000000) (processFs sampleStatLine) ⟨DT_DIR, "1234".toList⟩ 1234
    sampledProcess sampledManager rfl (by decide) (by decide) rfl
  exact ⟨pm2, h1, h6 9 rfl (by decide) (by decide) (by decide) ⟨by decide, by decide⟩
    (by decide) (by decide) (by decide)⟩

/-! ## C5: memory percentage -/

set_option maxRecDepth 100000 in
/-- C5 (counterexample): in `src/process-manager.cpp` a sample taken while the total memory
is unknown (0) carries the memory percentage 0.0, the very value of a rated process that has
no resident memory. -/
theorem root_getProcessInfo_unrated_equals_rated :
    memView ((cachedManager 9 0).getProcessInfo (processFs sampleStatLine) 1234)
        = some (3600, Double.zero)
    ∧ memView ((cachedManager 9 16000000).getProcessInfo kernelThreadFs 1234)
        = some (0, Double.zero)
    ∧ percentOf 0 16000000 = Double.zero :=
  ⟨by decide, by decide, by decide⟩

/-- The memory percentage in `src/process-manager.cpp`: the double expression
`(double)rss / total * 100.0` for a positive total, and the 0.0 of `proc = {}` otherwise. -/
theorem root_getProcessInfo_mem_percent (pm : ProcessManager) (fs : ProcFs) (pid : Int)
    (proc : ProcessInfo) (pm1 : ProcessManager)
    (hs : pm.getProcessInfo fs pid = .ok (proc, pm1)) :
    (0 < pm.sys_info.total_mem →
        proc.mem_percent = percentOf proc.mem_rss pm.sys_info.total_mem)
    ∧ (pm.sys_info.total_mem ≤ 0 → proc.mem_percent = Double.zero) := by
  obtain ⟨p, hp, _, hm⟩ := root_getProcessInfo_ok pm fs pid _ hs
  have hproc : proc = (rateProcess pm fs pid p).1 := congrArg Prod.fst hp
  obtain ⟨_, _, hrss, _⟩ := rateProcess_fields pm fs pid p
  constructor
  · intro h; rw [hproc, rateProcess_mem_pos pm fs pid p h, hrss]
  · intro h; rw [hproc, rateProcess_mem_nonpos pm fs pid p h, hm]

/-- C5 (amended): in `src/src/process-manager.cpp`, a successful `getProcessInfo` sets
`mem_percent` to the double expression `(double)rss / total_mem * 100.0` when the total
memory is positive (within a relative error of `2 ^ (-50)` of the exact `rss / total * 100`)
and leaves the sentinel -1.0 when it is not; no rated value of a process with a resident
size `>= 0` equals the sentinel. -/
theorem src_getProcessInfo_mem_percent (pm : ProcessManager) (fs : ProcFs) (pid : Int)
    (proc : ProcessInfo) (pm1 : ProcessManager)
    (hs : SrcProcessManager.getProcessInfo pm fs pid = .ok (proc, pm1)) :
    (0 < pm.sys_info.total_mem →
        proc.mem_percent = percentOf proc.mem_rss pm.sys_info.total_mem
        ∧ |proc.mem_percent.toRat - (proc.mem_rss : ℚ) / pm.sys_info.total_mem * 100|
            ≤ |(proc.mem_rss : ℚ) / pm.sys_info.total_mem * 100| / 2 ^ 50)
    ∧ (pm.sys_info.total_mem ≤ 0 → proc.mem_percent = Double.minusOne)
    ∧ (∀ rss total : Int, 0 ≤ rss → 0 < total → percentOf rss total ≠ Double.minusOne)
    ∧ (∀ rss total : Int, 0 ≤ rss → 0 < total →
        Double.ge (percentOf rss total) Double.zero = true)
    ∧ Double.ge Double.minusOne Double.zero = false := by
  obtain ⟨p, hp, _, hm⟩ := src_getProcessInfo_ok pm fs pid _ hs
  have hproc : proc = (rateProcess pm fs pid p).1 := congrArg Prod.fst hp
  obtain ⟨_, _, hrss, _⟩ := rateProcess_fields pm fs pid p
  refine ⟨?_, ?_, ?_, ?_, ge_minusOne_zero⟩
  · intro h
    have he : proc.mem_percent = percentOf proc.mem_rss pm.sys_info.total_mem := by
      rw [hproc, rateProcess_mem_pos pm fs pid p h, hrss]
    refine ⟨he, ?_⟩
    rw [he]
    exact (percentOf_accurate _ _ (by omega)).2
  · intro h; rw [hproc, rateProcess_mem_nonpos pm fs pid p h, hm]
  · intro rss total h1 h2; exact percentOf_ne_minusOne rss total h1 h2
  · intro rss total h1 h2; exact ge_zero_of_isNonneg _ (percentOf_isNonneg rss total h1 h2)

set_option maxRecDepth 100000 in
/-- Witness for C5: process 1234 with 3600 kB resident out of 16000000 kB. -/
theorem src_getProcessInfo_mem_percent_witness :
    sampledProcess.mem_percent = percentOf 3600 16000000
    ∧ percentOf 3600 16000000 ≠ Double.minusOne :=
  have h := src_getProcessInfo_mem_percent (cachedManager 9 16000000)
    (processFs sampleStatLine) 1234 sampledProcess sampledManager rfl
  ⟨(h.1 (by decide)).1, h.2.2.1 3600 16000000 (by decide) (by decide)⟩

/-! ## C6 and C7: the comparison handed to `std::sort` -/

theorem strLt_irrefl (s : List Char) : strLt s s = false := by
  induction s with
  | nil => rfl
  | cons a as ih => simp [strLt, ih]

theorem double_lt_irrefl (a : Double) : Double.lt a a = false := by
  cases a with
  | finite m e => simp [Double.lt]
  | inf s => cases s <;> rfl
  | nan => rfl

set_option maxRecDepth 100000 in
/-- C6 (code defect): in the state the constructor leaves (sort by CPU%, descending), the
comparison returns `true` for a process against itself, so the precondition of `std::sort`
fails on the seventeen idle processes and `sortProcesses` has undefined behaviour; with the
direction switched to ascending the same list is sorted. -/
theorem sortProcesses_descending_undefined :
    idleManager.sortComp (idleProcesses.headD ProcessInfo.zeroed)
        (idleProcesses.headD ProcessInfo.zeroed) = true
    ∧ isStrictWeakOrderOn idleManager.sortComp idleProcesses = false
    ∧ sortedPids idleManager.sortProcesses = none
    ∧ sortedPids ({ idleManager with reverse_sort := false }).sortProcesses
        = some [1, 2, 3, 4, 5, 6, 7, 8, 9, 10, 11, 12, 13, 14, 15, 16, 17] :=
  ⟨by decide, by decide, by decide, by decide⟩

/-- C7 (code defect): whenever `reverse_sort` is set, the comparison ranks every process
before itself, for every key: it is not irreflexive, hence no strict weak ordering, and it is
the negation of the ascending comparison rather than its converse. -/
theorem sortComp_descending_reflexive (pm : ProcessManager) (a : ProcessInfo)
    (hrev : pm.reverse_sort = true) :
    pm.sortComp a a = true
    ∧ ({ pm with reverse_sort := false }).sortComp a a = false
    ∧ ∀ b, pm.sortComp a b = !(({ pm with reverse_sort := false }).sortComp a b) := by
  have hasc : ({ pm with reverse_sort := false }).sortComp a a = false := by
    simp only [ProcessManager.sortComp, strLt_irrefl, double_lt_irrefl, lt_self_iff_false,
      decide_False, ite_self, Bool.false_eq_true, if_false]
  have hneg : ∀ b, pm.sortComp a b = !(({ pm with reverse_sort := false }).sortComp a b) := by
    intro b
    simp only [ProcessManager.sortComp, hrev, if_true, Bool.false_eq_true, if_false]
  refine ⟨?_, hasc, hneg⟩
  rw [hneg a, hasc]; rfl

/-- Witness for C7: the first idle process in the state the constructor leaves. -/
theorem sortComp_descending_reflexive_witness :
    idleManager.sortComp (idleProcesses.headD ProcessInfo.zeroed)
      (idleProcesses.headD ProcessInfo.zeroed) = true :=
  (sortComp_descending_reflexive idleManager (idleProcesses.headD ProcessInfo.zeroed) rfl).1

/-! ## C8 and C9: choosing the key and the direction -/

/-- C8: `setSortColumn col` flips `reverse_sort` and keeps `sort_column` when `col` is the
current key; otherwise it selects `col` and sets `reverse_sort` to `true` exactly for the
keys 4 (CPU%) and 5 (memory%).  No other field changes. -/
theorem setSortColumn_spec (pm : ProcessManager) (col : Int) :
    (pm.sort_column = col →
        (pm.setSortColumn col).sort_column = pm.sort_column
        ∧ (pm.setSortColumn col).reverse_sort = !pm.reverse_sort)
    ∧ (pm.sort_column ≠ col →
        (pm.setSortColumn col).sort_column = col
        ∧ ((pm.setSortColumn col).reverse_sort = true ↔ (col = 4 ∨ col = 5))
        ∧ ((pm.setSortColumn col).reverse_sort = false ↔ (col ≠ 4 ∧ col ≠ 5)))
    ∧ (pm.setSortColumn col).processes = pm.processes
    ∧ (pm.setSortColumn col).sys_info = pm.sys_info
    ∧ (pm.setSortColumn col).prev_cpu_times = pm.prev_cpu_times
    ∧ (pm.setSortColumn col).prev_total_cpu_time = pm.prev_total_cpu_time := by
  unfold ProcessManager.setSortColumn
  refine ⟨?_, ?_, ?_, ?_, ?_, ?_⟩
  · intro h; simp [h]
  · intro h; simp [h]
  all_goals split <;> rfl

/-- Witness for C8: from the initial state (key 4, descending), selecting key 0 gives
ascending order, and selecting key 4 again flips the direction. -/
theorem setSortColumn_spec_witness :
    ((ProcessManager.init.setSortColumn 0).sort_column = 0
      ∧ (ProcessManager.init.setSortColumn 0).reverse_sort = false)
    ∧ ((ProcessManager.init.setSortColumn 4).sort_column = 4
      ∧ (ProcessManager.init.setSortColumn 4).reverse_sort = false) :=
  ⟨⟨((setSortColumn_spec ProcessManager.init 0).2.1 (by decide)).1,
      ((setSortColumn_spec ProcessManager.init 0).2.1 (by decide)).2.2.2 (by decide)⟩,
    (setSortColumn_spec ProcessManager.init 4).1 rfl⟩

/-- Toggling the direction twice restores the state: the `r` (or `R`) command twice, and
`setSortColumn` twice with the selected key, give back the same manager; one toggle keeps the
key and flips the direction. -/
theorem toggle_twice_restores_state (pm : ProcessManager) :
    ((pm.command 'r').1.command 'r').1 = pm
    ∧ ((pm.command 'R').1.command 'R').1 = pm
    ∧ (pm.setSortColumn pm.sort_column).setSortColumn pm.sort_column = pm
    ∧ (pm.setSortColumn pm.sort_column).sort_column = pm.sort_column
    ∧ (pm.setSortColumn pm.sort_column).reverse_sort = !pm.reverse_sort
    ∧ (pm.command 'r').1.sort_column = pm.sort_column
    ∧ (pm.command 'r').1.reverse_sort = !pm.reverse_sort := by
  have h1 : ((pm.command 'r').1.command 'r').1 = pm := by
    cases pm; simp [ProcessManager.command]
  have h2 : ((pm.command 'R').1.command 'R').1 = pm := by
    cases pm; simp [ProcessManager.command]
  have h3 : (pm.setSortColumn pm.sort_column).setSortColumn pm.sort_column = pm := by
    cases pm; simp [ProcessManager.setSortColumn]
  refine ⟨h1, h2, h3, ?_, ?_, ?_, ?_⟩
  · simp [ProcessManager.setSortColumn]
  · simp [ProcessManager.setSortColumn]
  · simp [ProcessManager.command]
  · simp [ProcessManager.command]

set_option maxRecDepth 100000 in
/-- C9 (code defect): in the state the constructor leaves (key 4, descending) with the
seventeen idle processes, two `r` commands do restore the key and the direction, but the sort
yields no order to return to: `sortProcesses` is undefined before the toggles and after both
of them, because the descending comparison ranks a process before itself; only the state in
between (ascending) sorts. -/
theorem toggle_twice_sort_undefined :
    ((idleManager.command 'r').1.command 'r').1.sort_column = 4
    ∧ ((idleManager.command 'r').1.command 'r').1.reverse_sort = true
    ∧ (idleManager.command 'r').1.reverse_sort = false
    ∧ isStrictWeakOrderOn idleManager.sortComp idleProcesses = false
    ∧ sortedPids idleManager.sortProcesses = none
    ∧ sortedPids ((idleManager.command 'r').1.command 'r').1.sortProcesses = none
    ∧ (sortedPids (idleManager.command 'r').1.sortProcesses).isSome = true
    ∧ (sortedPids (idleManager.command 'r').1.sortProcesses).map List.length = some 17 :=
  ⟨by decide, by decide, by decide, by decide, by decide, by decide, by decide, by decide⟩

/-! ## C10: the rows of `printProcesses` -/

theorem toInt32_of_lt (n : Nat) (h : n < 2 ^ 31) : toInt32 n = (n : Int) := by
  unfold toInt32
  have h1 : n % 2 ^ 32 = n := Nat.mod_eq_of_lt (by omega)
  rw [h1, if_pos h]

theorem printLoop_spec (ps : List ProcessInfo) (bound : Int) (hb : bound ≤ ps.length) :
    ∀ (fuel i : Nat), i ≤ ps.length → ps.length + 1 ≤ fuel + i →
      printLoop ps bound fuel i
        = some (((ps.drop i).take (bound.toNat - i)).map Row.ofProcess) := by
  intro fuel
  induction fuel with
  | zero => intro i h1 h2; omega
  | succ f ih =>
    intro i h1 h2
    unfold printLoop
    by_cases hlt : (i : Int) < bound
    · have hi : i < ps.length := by omega
      have hget : ps.get? i = some (ps.get ⟨i, hi⟩) := List.get?_eq_get hi
      have hdrop : ps.drop i = ps.get ⟨i, hi⟩ :: ps.drop (i + 1) := by
        rw [List.drop_eq_getElem_cons hi]; rfl
      have hpos : bound.toNat - i = (bound.toNat - (i + 1)) + 1 := by omega
      simp only [hlt, if_true, hget, ih (i + 1) (by omega) (by omega), Option.map_some', hdrop,
        hpos, List.take_succ_cons, List.map_cons]
    · have hz : bound.toNat - i = 0 := by omega
      simp [hlt, hz]

/-- C10: on a terminal of `H` rows, `printProcesses` writes the rows of the first
`min (N, H - 8)` processes of the list, in order, and none when `H < 8`; the count is never
above `N`.  (`N < 2 ^ 31`: the size is converted to `int`.) -/
theorem printProcesses_rows (pm : ProcessManager) (H : Nat)
    (hsize : pm.processes.length < 2 ^ 31) :
    ∃ rows, pm.printProcesses H = some rows
      ∧ rows = (pm.processes.take (H - 8)).map Row.ofProcess
      ∧ (8 ≤ H → rows.length = min pm.processes.length (H - 8))
      ∧ (H < 8 → rows.length = 0)
      ∧ rows.length ≤ pm.processes.length := by
  have hb : min ((H : Int) - 8) (toInt32 pm.processes.length) ≤ pm.processes.length := by
    rw [toInt32_of_lt _ hsize]; exact min_le_right _ _
  have hloop := printLoop_spec pm.processes _ hb (pm.processes.length + 1) 0 (by omega) (by omega)
  have htake : (pm.processes.take
        ((min ((H : Int) - 8) (toInt32 pm.processes.length)).toNat)) = pm.processes.take (H - 8) := by
    rw [toInt32_of_lt _ hsize]
    rcases le_total ((H : Int) - 8) (pm.processes.length : Int) with h | h
    · rw [min_eq_left h]; congr 1; omega
    · rw [min_eq_right h, Int.toNat_ofNat, List.take_length]
      rw [List.take_of_length_le (by omega)]
  refine ⟨(pm.processes.take (H - 8)).map Row.ofProcess, ?_, rfl, ?_, ?_, ?_⟩
  · unfold ProcessManager.printProcesses
    simp only
    rw [hloop]
    simp only [List.drop_zero, Nat.sub_zero]
    rw [htake]
  · intro _; simp [List.length_take, Nat.min_comm]
  · intro h
    have : H - 8 = 0 := by omega
    simp [this]
  · simp [List.length_take]

/-- Witness for C10: seventeen processes on a terminal of 24 rows give sixteen rows. -/
theorem printProcesses_rows_witness :
    ∃ rows, idleManager.printProcesses 24 = some rows ∧ rows.length = 16 := by
  obtain ⟨rows, h1, _, h3, _⟩ := printProcesses_rows idleManager 24 (by decide)
  exact ⟨rows, h1, (h3 (by decide)).trans (by decide)⟩

/-! ## The model of `std::sort` with a valid comparison -/

theorem strictWeakOn_asymm {α : Type} {P : α → Prop} {comp : α → α → Bool}
    (h : StrictWeakOn P comp) (a b : α) (ha : P a) (hb : P b) (hab : comp a b = true) :
    comp b a = false := by
  cases hba : comp b a with
  | false => rfl
  | true =>
    have := h.trans a b a ha hb ha hab hba
    rw [h.irrefl a ha] at this
    exact Bool.noConfusion this

theorem isStrictWeakOrderOn_of {α : Type} {P : α → Prop} {comp : α → α → Bool}
    (h : StrictWeakOn P comp) (l : List α) (hl : ∀ a ∈ l, P a) :
    isStrictWeakOrderOn comp l = true := by
  unfold isStrictWeakOrderOn
  simp only [Bool.and_eq_true, List.all_eq_true, Bool.or_eq_true, Bool.not_eq_true',
    Bool.and_eq_false_imp]
  refine ⟨⟨?_, ?_⟩, ?_⟩
  · intro a ha; exact h.irrefl a (hl a ha)
  · intro a ha b hb c hc
    cases hab : comp a b with
    | false => left; intro h'; exact Bool.noConfusion h'
    | true =>
      cases hbc : comp b c with
      | false => left; intro _; rfl
      | true => right; exact h.trans a b c (hl a ha) (hl b hb) (hl c hc) hab hbc
  · intro a ha b hb c hc
    cases hab : comp a b with
    | true => left; simp
    | false =>
      cases hba : comp b a with
      | true => left; simp
      | false =>
        cases hbc : comp b c with
        | true => left; simp
        | false =>
          cases hcb : comp c b with
          | true => left; simp
          | false =>
            right
            exact ⟨h.negTrans a b c (hl a ha) (hl b hb) (hl c hc) hab hbc,
              h.negTrans c b a (hl c hc) (hl b hb) (hl a ha) hcb hba⟩

theorem sortedInsert_perm {α : Type} (comp : α → α → Bool) (a : α) (l : List α) :
    (sortedInsert comp a l).Perm (a :: l) := by
  induction l with
  | nil => exact List.Perm.refl _
  | cons b l ih =>
    unfold sortedInsert
    split
    · exact (List.Perm.cons b ih).trans (List.Perm.swap a b l)
    · exact List.Perm.refl _

theorem insertionSort_perm {α : Type} (comp : α → α → Bool) (l : List α) :
    (insertionSort comp l).Perm l := by
  induction l with
  | nil => exact List.Perm.refl _
  | cons a l ih =>
    unfold insertionSort
    exact (sortedInsert_perm comp a _).trans (List.Perm.cons a ih)

theorem sortedInsert_sorted {α : Type} {P : α → Prop} {comp : α → α → Bool}
    (h : StrictWeakOn P comp) (a : α) (ha : P a) (l : List α) (hl : ∀ x ∈ l, P x)
    (hs : l.Pairwise (fun x y => comp y x = false)) :
    (sortedInsert comp a l).Pairwise (fun x y => comp y x = false) := by
  induction l with
  | nil => simp [sortedInsert]
  | cons b l ih =>
    have hb : P b := hl b (List.mem_cons_self b l)
    have hl' : ∀ x ∈ l, P x := fun x hx => hl x (List.mem_cons_of_mem b hx)
    obtain ⟨hbl, hsl⟩ := List.pairwise_cons.1 hs
    unfold sortedInsert
    split
    · rename_i hba
      refine List.pairwise_cons.2 ⟨?_, ih hl' hsl⟩
      intro y hy
      rcases List.mem_cons.1 ((sortedInsert_perm comp a l).mem_iff.1 hy) with rfl | hy'
      · exact strictWeakOn_asymm h b y hb ha hba
      · exact hbl y hy'
    · rename_i hba
      have hba' : comp b a = false := by simpa using hba
      refine List.pairwise_cons.2 ⟨?_, hs⟩
      intro y hy
      rcases List.mem_cons.1 hy with rfl | hy'
      · exact hba'
      · exact h.negTrans y b a (hl' y hy') hb ha (hbl y hy') hba'

theorem insertionSort_sorted {α : Type} {P : α → Prop} {comp : α → α → Bool}
    (h : StrictWeakOn P comp) (l : List α) (hl : ∀ x ∈ l, P x) :
    (insertionSort comp l).Pairwise (fun x y => comp y x = false) := by
  induction l with
  | nil => simp [insertionSort]
  | cons a l ih =>
    have hl' : ∀ x ∈ l, P x := fun x hx => hl x (List.mem_cons_of_mem a hx)
    unfold insertionSort
    refine sortedInsert_sorted h a (hl a (List.mem_cons_self a l)) _ ?_ (ih hl')
    intro x hx
    exact hl' x ((insertionSort_perm comp l).mem_iff.1 hx)

/-- With a comparison that is a strict weak ordering on the values of the list, `std::sort`
is defined and leaves a permutation in which no element is ranked before an earlier one. -/
theorem stdSort_spec {α : Type} {P : α → Prop} {comp : α → α → Bool}
    (h : StrictWeakOn P comp) (l : List α) (hl : ∀ x ∈ l, P x) :
    ∃ l', stdSort comp l = some l' ∧ l'.Perm l
      ∧ l'.Pairwise (fun x y => comp y x = false) := by
  refine ⟨insertionSort comp l, ?_, insertionSort_perm comp l, insertionSort_sorted h l hl⟩
  unfold stdSort
  rw [isStrictWeakOrderOn_of h l hl, if_pos rfl]

theorem strictWeakOn_comap {α κ : Type} {Q : κ → Prop} {lt : κ → κ → Bool}
    (h : StrictWeakOn Q lt) (key : α → κ) :
    StrictWeakOn (fun a => Q (key a)) (fun a b => lt (key a) (key b)) :=
  ⟨fun _ ha => h.irrefl _ ha,
   fun _ _ _ ha hb hc => h.trans _ _ _ ha hb hc,
   fun _ _ _ ha hb hc => h.negTrans _ _ _ ha hb hc⟩

theorem strictWeakOn_int : StrictWeakOn (fun _ : Int => True) (fun x y => decide (x < y)) :=
  ⟨fun _ _ => by simp,
   fun _ _ _ _ _ _ h1 h2 => by simp only [decide_eq_true_eq] at *; omega,
   fun _ _ _ _ _ _ h1 h2 => by simp only [decide_eq_false_iff_not] at *; omega⟩

theorem strLt_trans : ∀ a b c : List Char, strLt a b = true → strLt b c = true →
    strLt a c = true := by
  intro a
  induction a with
  | nil =>
    intro b c h1 h2
    cases b with
    | nil => simp [strLt] at h1
    | cons y b =>
      cases c with
      | nil => simp [strLt] at h2
      | cons z c => simp [strLt]
  | cons x a ih =>
    intro b c h1 h2
    cases b with
    | nil => simp [strLt] at h1
    | cons y b =>
      cases c with
      | nil => simp [strLt] at h2
      | cons z c =>
        simp only [strLt] at h1 h2 ⊢
        split at h1
        · split at h2
          · rw [if_pos (by omega)]
          · split at h2
            · exact Bool.noConfusion h2
            · rw [if_pos (by omega)]
        · split at h1
          · exact Bool.noConfusion h1
          · split at h2
            · rw [if_pos (by omega)]
            · split at h2
              · exact Bool.noConfusion h2
              · rw [if_neg (by omega), if_neg (by omega)]
                exact ih b c h1 h2

theorem strLt_negTrans : ∀ a b c : List Char, strLt a b = false → strLt b c = false →
    strLt a c = false := by
  intro a
  induction a with
  | nil =>
    intro b c h1 h2
    cases b with
    | nil =>
      cases c with
      | nil => rfl
      | cons z c => simp [strLt] at h2
    | cons y b => simp [strLt] at h1
  | cons x a ih =>
    intro b c h1 h2
    cases c with
    | nil => simp [strLt]
    | cons z c =>
      cases b with
      | nil => simp [strLt] at h2
      | cons y b =>
        simp only [strLt] at h1 h2 ⊢
        split at h1
        · exact Bool.noConfusion h1
        · split at h1
          · split at h2
            · exact Bool.noConfusion h2
            · rw [if_neg (by omega), if_pos (by omega)]
          · split at h2
            · exact Bool.noConfusion h2
            · split at h2
              · rw [if_neg (by omega), if_pos (by omega)]
              · rw [if_neg (by omega), if_neg (by omega)]
                exact ih b c h1 h2

theorem strictWeakOn_str : StrictWeakOn (fun _ : List Char => True) strLt :=
  ⟨fun a _ => strLt_irrefl a,
   fun a b c _ _ _ => strLt_trans a b c,
   fun a b c _ _ _ => strLt_negTrans a b c⟩

theorem lt_finite_iff (m1 e1 m2 e2 : Int) :
    Double.lt (.finite m1 e1) (.finite m2 e2) = true
      ↔ (m1 : ℚ) * (2 : ℚ) ^ e1 < (m2 : ℚ) * (2 : ℚ) ^ e2 := by
  have hpow : ∀ e : Int, min e1 e2 ≤ e →
      (((2 : Int) ^ (e - min e1 e2).toNat : Int) : ℚ) * (2 : ℚ) ^ (min e1 e2) = (2 : ℚ) ^ e := by
    intro e he
    have h1 : ((e - min e1 e2).toNat : Int) = e - min e1 e2 := Int.toNat_of_nonneg (by omega)
    push_cast
    rw [← zpow_natCast, h1, ← zpow_add₀ (by norm_num : (2 : ℚ) ≠ 0)]
    congr 1; ring
  have hmn : (0 : ℚ) < (2 : ℚ) ^ (min e1 e2) := by positivity
  simp only [Double.lt, decide_eq_true_eq]
  rw [← hpow e1 (min_le_left _ _), ← hpow e2 (min_le_right _ _), ← mul_assoc, ← mul_assoc,
    mul_lt_mul_right hmn]
  constructor
  · intro h; exact_mod_cast h
  · intro h; exact_mod_cast h

theorem lt_eq_false_iff_finite (m1 e1 m2 e2 : Int) :
    Double.lt (.finite m1 e1) (.finite m2 e2) = false
      ↔ (m2 : ℚ) * (2 : ℚ) ^ e2 ≤ (m1 : ℚ) * (2 : ℚ) ^ e1 := by
  rw [← not_lt, ← lt_finite_iff, Bool.not_eq_true]

theorem strictWeakOn_double : StrictWeakOn (fun d : Double => d ≠ .nan) Double.lt := by
  refine ⟨fun a _ => double_lt_irrefl a, ?_, ?_⟩
  · intro a b c ha hb hc h1 h2
    cases a with
    | nan => exact absurd rfl ha
    | inf s =>
      cases b with
      | nan => exact absurd rfl hb
      | inf t =>
        cases c with
        | nan => exact absurd rfl hc
        | inf u => cases s <;> cases t <;> cases u <;> simp_all [Double.lt]
        | finite m3 e3 => cases s <;> cases t <;> simp_all [Double.lt]
      | finite m2 e2 =>
        cases c with
        | nan => exact absurd rfl hc
        | inf u => cases s <;> cases u <;> simp_all [Double.lt]
        | finite m3 e3 => simpa [Double.lt] using h1
    | finite m1 e1 =>
      cases b with
      | nan => exact absurd rfl hb
      | inf t =>
        cases c with
        | nan => exact absurd rfl hc
        | inf u => cases t <;> cases u <;> simp_all [Double.lt]
        | finite m3 e3 => cases t <;> simp_all [Double.lt]
      | finite m2 e2 =>
        cases c with
        | nan => exact absurd rfl hc
        | inf u => simpa [Double.lt] using h2
        | finite m3 e3 =>
          rw [lt_finite_iff] at h1 h2 ⊢
          exact lt_trans h1 h2
  · intro a b c ha hb hc h1 h2
    cases a with
    | nan => exact absurd rfl ha
    | inf s =>
      cases b with
      | nan => exact absurd rfl hb
      | inf t =>
        cases c with
        | nan => exact absurd rfl hc
        | inf u => cases s <;> cases t <;> cases u <;> simp_all [Double.lt]
        | finite m3 e3 => cases s <;> cases t <;> simp_all [Double.lt]
      | finite m2 e2 =>
        cases c with
        | nan => exact absurd rfl hc
        | inf u => cases s <;> cases u <;> simp_all [Double.lt]
        | finite m3 e3 => simpa [Double.lt] using h1
    | finite m1 e1 =>
      cases b with
      | nan => exact absurd rfl hb
      | inf t =>
        cases c with
        | nan => exact absurd rfl hc
        | inf u => cases t <;> cases u <;> simp_all [Double.lt]
        | finite m3 e3 => cases t <;> simp_all [Double.lt]
      | finite m2 e2 =>
        cases c with
        | nan => exact absurd rfl hc
        | inf u => simpa [Double.lt] using h2
        | finite m3 e3 =>
          rw [lt_eq_false_iff_finite] at h1 h2 ⊢
          exact le_trans h2 h1

theorem strictWeakOn_mono {α : Type} {P Q : α → Prop} {comp : α → α → Bool}
    (h : StrictWeakOn P comp) (hQ : ∀ a, Q a → P a) : StrictWeakOn Q comp :=
  ⟨fun a ha => h.irrefl a (hQ a ha),
   fun a b c ha hb hc => h.trans a b c (hQ a ha) (hQ b hb) (hQ c hc),
   fun a b c ha hb hc => h.negTrans a b c (hQ a ha) (hQ b hb) (hQ c hc)⟩

/-- In ascending mode the comparison of `sortProcesses` is a strict weak ordering, for every
key, on processes whose percentages are not NaN. -/
theorem sortComp_ascending_strictWeak (pm : ProcessManager) (hasc : pm.reverse_sort = false) :
    StrictWeakOn (fun p : ProcessInfo => p.cpu_percent ≠ .nan ∧ p.mem_percent ≠ .nan)
      pm.sortComp := by
  have hcpu : StrictWeakOn (fun p : ProcessInfo => p.cpu_percent ≠ .nan ∧ p.mem_percent ≠ .nan)
      (fun a b : ProcessInfo => Double.lt a.cpu_percent b.cpu_percent) :=
    strictWeakOn_mono (strictWeakOn_comap strictWeakOn_double (fun p : ProcessInfo => p.cpu_percent))
      (fun _ h => h.1)
  by_cases h0 : pm.sort_column = 0
  · have : pm.sortComp = fun a b => decide (a.pid < b.pid) := by
      funext a b; simp [ProcessManager.sortComp, hasc, h0]
    rw [this]
    exact strictWeakOn_mono (strictWeakOn_comap strictWeakOn_int (fun p : ProcessInfo => p.pid))
      (fun _ _ => trivial)
  by_cases h1 : pm.sort_column = 1
  · have : pm.sortComp = fun a b => strLt a.name b.name := by
      funext a b; simp [ProcessManager.sortComp, hasc, h1]
    rw [this]
    exact strictWeakOn_mono (strictWeakOn_comap strictWeakOn_str (fun p : ProcessInfo => p.name))
      (fun _ _ => trivial)
  by_cases h2 : pm.sort_column = 2
  · have : pm.sortComp = fun a b => strLt a.state b.state := by
      funext a b; simp [ProcessManager.sortComp, hasc, h2]
    rw [this]
    exact strictWeakOn_mono (strictWeakOn_comap strictWeakOn_str (fun p : ProcessInfo => p.state))
      (fun _ _ => trivial)
  by_cases h3 : pm.sort_column = 3
  · have : pm.sortComp = fun a b => strLt a.user b.user := by
      funext a b; simp [ProcessManager.sortComp, hasc, h3]
    rw [this]
    exact strictWeakOn_mono (strictWeakOn_comap strictWeakOn_str (fun p : ProcessInfo => p.user))
      (fun _ _ => trivial)
  by_cases h4 : pm.sort_column = 4
  · have : pm.sortComp = fun a b => Double.lt a.cpu_percent b.cpu_percent := by
      funext a b; simp [ProcessManager.sortComp, hasc, h4]
    rw [this]
    exact hcpu
  by_cases h5 : pm.sort_column = 5
  · have : pm.sortComp = fun a b => Double.lt a.mem_percent b.mem_percent := by
      funext a b; simp [ProcessManager.sortComp, hasc, h5]
    rw [this]
    exact strictWeakOn_mono (strictWeakOn_comap strictWeakOn_double (fun p : ProcessInfo => p.mem_percent))
      (fun _ h => h.2)
  by_cases h6 : pm.sort_column = 6
  · have : pm.sortComp = fun a b => decide (a.mem_rss < b.mem_rss) := by
      funext a b; simp [ProcessManager.sortComp, hasc, h6]
    rw [this]
    exact strictWeakOn_mono (strictWeakOn_comap strictWeakOn_int (fun p : ProcessInfo => p.mem_rss))
      (fun _ _ => trivial)
  · have : pm.sortComp = fun a b => Double.lt a.cpu_percent b.cpu_percent := by
      funext a b; simp [ProcessManager.sortComp, hasc, h0, h1, h2, h3, h4, h5, h6]
    rw [this]
    exact hcpu

/-- In ascending mode `sortProcesses` is defined and leaves a permutation of the list in which
no process is ranked before an earlier one (the keys are non-decreasing), for every key. -/
theorem sortProcesses_ascending (pm : ProcessManager) (hasc : pm.reverse_sort = false)
    (hnan : ∀ p ∈ pm.processes, p.cpu_percent ≠ .nan ∧ p.mem_percent ≠ .nan) :
    ∃ sorted, pm.sortProcesses = some { pm with processes := sorted }
      ∧ sorted.Perm pm.processes
      ∧ sorted.Pairwise (fun x y => pm.sortComp y x = false) := by
  obtain ⟨l', h1, h2, h3⟩ :=
    stdSort_spec (sortComp_ascending_strictWeak pm hasc) pm.processes hnan
  refine ⟨l', ?_, h2, h3⟩
  unfold ProcessManager.sortProcesses
  rw [h1]; rfl

/-- In descending mode `sortProcesses` is undefined on every list that is not empty. -/
theorem sortProcesses_descending_none (pm : ProcessManager) (hrev : pm.reverse_sort = true)
    (hne : pm.processes ≠ []) : pm.sortProcesses.isNone = true := by
  have hrefl : ∀ a, pm.sortComp a a = true := by
    intro a
    simp only [ProcessManager.sortComp, strLt_irrefl, double_lt_irrefl, lt_self_iff_false,
      decide_False, ite_self, hrev, if_true, Bool.not_false]
  cases hl : pm.processes with
  | nil => exact absurd hl hne
  | cons a l =>
    unfold ProcessManager.sortProcesses stdSort isStrictWeakOrderOn
    rw [hl]
    simp [hrefl]

/-! ## The output list of a whole scan -/

theorem getSystemInfo_processes (pm : ProcessManager) (fs : ProcFs) (info : SystemInfo)
    (pm1 : ProcessManager) (h : pm.getSystemInfo fs = .ok (info, pm1)) :
    pm1.processes = pm.processes := by
  unfold ProcessManager.getSystemInfo at h
  split at h
  · exact Outcome.noConfusion h
  · split at h
    · injection h with h; injection h with _ h2; rw [← h2]
    · split at h
      · exact Outcome.noConfusion h
      · injection h with h; injection h with _ h2; rw [← h2]

theorem scanEntry_processes
    (sample : ProcessManager → ProcFs → Int → Outcome (ProcessInfo × ProcessManager))
    (keeps : ProcessInfo → Bool)
    (hsample : ∀ pm fs pid proc pm1, sample pm fs pid = .ok (proc, pm1) →
      pm1.processes = pm.processes)
    (fs : ProcFs) (pm pm2 : ProcessManager) (entry : Dirent)
    (h : scanEntry sample keeps fs pm entry = .ok pm2) :
    pm2.processes = pm.processes
      ∨ ∃ proc, keeps proc = true ∧ pm2.processes = pm.processes ++ [proc] := by
  unfold scanEntry at h
  split at h
  · split at h
    · exact Outcome.noConfusion h
    · split at h
      · rename_i proc pm1 hs
        have hp := hsample _ _ _ _ _ hs
        split at h
        · rename_i hk
          injection h with h
          right
          exact ⟨proc, hk, by rw [← h, hp]⟩
        · injection h with h
          left; rw [← h, hp]
      · injection h with h; left; rw [h]
      · exact Outcome.noConfusion h
  · injection h with h; left; rw [h]

theorem scanLoop_all_kept
    (sample : ProcessManager → ProcFs → Int → Outcome (ProcessInfo × ProcessManager))
    (keeps : ProcessInfo → Bool)
    (hsample : ∀ pm fs pid proc pm1, sample pm fs pid = .ok (proc, pm1) →
      pm1.processes = pm.processes)
    (fs : ProcFs) (entries : List Dirent) :
    ∀ (pm pm2 : ProcessManager), (∀ p ∈ pm.processes, keeps p = true) →
      scanLoop sample keeps fs pm entries = .ok pm2 → ∀ p ∈ pm2.processes, keeps p = true := by
  induction entries with
  | nil =>
    intro pm pm2 hinv h
    simp only [scanLoop] at h
    injection h with h
    rw [← h]; exact hinv
  | cons entry rest ih =>
    intro pm pm2 hinv h
    simp only [scanLoop] at h
    split at h
    · rename_i pm1 he
      refine ih pm1 pm2 ?_ h
      rcases scanEntry_processes sample keeps hsample fs pm pm1 entry he with h1 | ⟨proc, hk, h1⟩
      · rw [h1]; exact hinv
      · rw [h1]
        intro p hp
        rcases List.mem_append.1 hp with hp | hp
        · exact hinv p hp
        · rw [List.mem_singleton.1 hp]; exact hk
    · exact Outcome.noConfusion h
    · exact Outcome.noConfusion h

theorem src_getProcessInfo_processes (pm : ProcessManager) (fs : ProcFs) (pid : Int)
    (proc : ProcessInfo) (pm1 : ProcessManager)
    (h : SrcProcessManager.getProcessInfo pm fs pid = .ok (proc, pm1)) :
    pm1.processes = pm.processes := by
  obtain ⟨p, hp, _⟩ := src_getProcessInfo_ok pm fs pid _ h
  have hpm1 : pm1 = (rateProcess pm fs pid p).2 := congrArg Prod.snd hp
  rw [hpm1]
  exact (rateProcess_fields pm fs pid p).2.2.2.2.1

/-- Every process on the list that `scanProcesses` of `src/src/process-manager.cpp` leaves has
a non-empty name, `cpu_percent >= 0.0` and `mem_percent >= 0.0`. -/
theorem src_scanProcesses_all_rated (pm pm2 : ProcessManager) (fs : ProcFs)
    (h : SrcProcessManager.scanProcesses pm fs = .ok pm2) :
    ∀ p ∈ pm2.processes, p.name ≠ [] ∧ Double.ge p.cpu_percent Double.zero = true
      ∧ Double.ge p.mem_percent Double.zero = true := by
  have hkeeps : ∀ p ∈ pm2.processes, SrcProcessManager.keeps p = true := by
    unfold SrcProcessManager.scanProcesses scanWith at h
    split at h
    · exact Outcome.noConfusion h
    · exact Outcome.noConfusion h
    · rename_i info pm1 hsys
      have hp1 : pm1.processes = [] := getSystemInfo_processes _ fs info pm1 hsys
      simp only at h
      split at h
      · injection h with h
        rw [← h]
        intro p hp
        rw [hp1] at hp
        exact absurd hp (List.not_mem_nil p)
      · split at h
        · rename_i pm3 hloop
          injection h with h
          have := scanLoop_all_kept SrcProcessManager.getProcessInfo SrcProcessManager.keeps
            src_getProcessInfo_processes fs _ _ pm3
            (by intro p hp; rw [hp1] at hp; exact absurd hp (List.not_mem_nil p)) hloop
          rw [← h]
          exact this
        · exact Outcome.noConfusion h
        · exact Outcome.noConfusion h
  intro p hp
  have hk := hkeeps p hp
  unfold SrcProcessManager.keeps at hk
  simp only [Bool.and_eq_true, Bool.not_eq_true', List.isEmpty_eq_false] at hk
  exact ⟨hk.1.1, hk.1.2, hk.2⟩

/-! ## The extractions on a well-formed record -/

theorem takeWhile_append_stop {α : Type} (p : α → Bool) (t rest : List α)
    (ht : ∀ c ∈ t, p c = true) (hr : ∀ c, rest.head? = some c → p c = false) :
    (t ++ rest).takeWhile p = t ∧ (t ++ rest).dropWhile p = rest := by
  induction t with
  | nil =>
    cases rest with
    | nil => exact ⟨rfl, rfl⟩
    | cons c r =>
      have := hr c rfl
      simp [List.takeWhile, List.dropWhile, this]
  | cons a t ih =>
    have ha : p a = true := ht a (List.mem_cons_self a t)
    obtain ⟨h1, h2⟩ := ih (fun c hc => ht c (List.mem_cons_of_mem a hc))
    simp [List.takeWhile, List.dropWhile, ha, h1, h2]

theorem isspace_space : isspace (Char.ofNat 32) = true := by decide

theorem isdigit_space : isdigit (Char.ofNat 32) = false := by decide

theorem isdigit_not_space (c : Char) (h : isdigit c = true) : isspace c = false := by
  unfold isdigit at h
  unfold isspace
  simp only [Bool.and_eq_true, decide_eq_true_eq] at h
  simp only [Bool.or_eq_false_iff, beq_eq_false_iff_ne, ne_eq, Bool.and_eq_false_imp,
    decide_eq_true_eq, decide_eq_false_iff_not, not_le]
  omega

theorem isdigit_not_sign (c : Char) (h : isdigit c = true) :
    c ≠ Char.ofNat 45 ∧ c ≠ Char.ofNat 43 := by
  constructor <;> (intro hc; rw [hc] at h; exact absurd h (by decide))

/-- The sentry on a good stream whose text starts, after at most one space, with a character
that is no whitespace. -/
theorem sentry_token (c : Char) (t : List Char) (hc : isspace c = false) :
    (IStream.sentry ⟨c :: t, false, false⟩ = (⟨c :: t, false, false⟩, true))
    ∧ (IStream.sentry ⟨Char.ofNat 32 :: c :: t, false, false⟩ = (⟨c :: t, false, false⟩, true)) := by
  constructor
  · simp [IStream.sentry, IStream.good, List.dropWhile, hc]
  · simp [IStream.sentry, IStream.good, List.dropWhile, hc, isspace_space]

/-- An integer extraction reads a number field in full and leaves the stream good, in front of
what follows the field. -/
theorem readInteger_number (lo hi : Int) (hiN : Nat) (t rest : List Char) (lead : Bool)
    (hlo : lo ≤ 0) (hhi : (hiN : Int) ≤ hi)
    (ht : IsNumber hiN t) (hr : rest = [] ∨ rest.head? = some (Char.ofNat 32)) :
    IStream.readInteger lo hi
        ⟨if lead then Char.ofNat 32 :: (t ++ rest) else t ++ rest, false, false⟩
      = (⟨rest, rest.isEmpty, false⟩, some (digitsValue t : Int)) := by
  obtain ⟨hne, hdig, hval⟩ := ht
  cases t with
  | nil => exact absurd rfl hne
  | cons c t =>
    have hcd : isdigit c = true := hdig c (List.mem_cons_self c t)
    have hcs : isspace c = false := isdigit_not_space c hcd
    have hsentry : IStream.sentry
        ⟨if lead then Char.ofNat 32 :: (c :: t ++ rest) else c :: t ++ rest, false, false⟩
        = (⟨c :: (t ++ rest), false, false⟩, true) := by
      cases lead
      · exact (sentry_token c (t ++ rest) hcs).1
      · exact (sentry_token c (t ++ rest) hcs).2
    have hstop : ∀ d, rest.head? = some d → isdigit d = false := by
      intro d hd
      rcases hr with hr | hr
      · rw [hr] at hd; exact Option.noConfusion hd
      · rw [hr] at hd; injection hd with hd; rw [← hd]; exact isdigit_space
    obtain ⟨htake, hdrop⟩ := takeWhile_append_stop isdigit (c :: t) rest hdig hstop
    have hs1 := (isdigit_not_sign c hcd).1
    have hs2 := (isdigit_not_sign c hcd).2
    have hv1 : ¬ hi < (digitsValue (c :: t) : Int) := by omega
    have hv2 : ¬ (digitsValue (c :: t) : Int) < lo := by omega
    have htake' : List.takeWhile isdigit (c :: (t ++ rest)) = c :: t := htake
    have hdrop' : List.dropWhile isdigit (c :: (t ++ rest)) = rest := hdrop
    have hb1 : (some c == some (Char.ofNat 45)) = false := by simp [hs1]
    have hb2 : (some c == some (Char.ofNat 43)) = false := by simp [hs2]
    unfold IStream.readInteger
    simp only [hsentry, Bool.not_true, Bool.false_eq_true, if_false, List.head?_cons,
      hb1, hb2, Bool.or_self, htake', hdrop', List.isEmpty_cons, hv1, hv2]

/-- A string extraction reads a word in full and leaves the stream good, in front of what
follows the word. -/
theorem readString_word (w rest : List Char) (lead : Bool) (hw : IsWord w)
    (hr : rest = [] ∨ rest.head? = some (Char.ofNat 32)) :
    IStream.readString
        ⟨if lead then Char.ofNat 32 :: (w ++ rest) else w ++ rest, false, false⟩
      = (⟨rest, rest.isEmpty, false⟩, some w) := by
  obtain ⟨hne, hns⟩ := hw
  cases w with
  | nil => exact absurd rfl hne
  | cons c w =>
    have hcs : isspace c = false := hns c (List.mem_cons_self c w)
    have hsentry : IStream.sentry
        ⟨if lead then Char.ofNat 32 :: (c :: w ++ rest) else c :: w ++ rest, false, false⟩
        = (⟨c :: (w ++ rest), false, false⟩, true) := by
      cases lead
      · exact (sentry_token c (w ++ rest) hcs).1
      · exact (sentry_token c (w ++ rest) hcs).2
    have hstop : ∀ d, rest.head? = some d → (fun x => !isspace x) d = false := by
      intro d hd
      rcases hr with hr | hr
      · rw [hr] at hd; exact Option.noConfusion hd
      · rw [hr] at hd; injection hd with hd; rw [← hd]; simp [isspace_space]
    obtain ⟨htake, hdrop⟩ := takeWhile_append_stop (fun x => !isspace x) (c :: w) rest
      (fun x hx => by simp [hns x hx]) hstop
    have htake' : List.takeWhile (fun x => !isspace x) (c :: (w ++ rest)) = c :: w := htake
    have hdrop' : List.dropWhile (fun x => !isspace x) (c :: (w ++ rest)) = rest := hdrop
    unfold IStream.readString
    simp only [hsentry, Bool.not_true, Bool.false_eq_true, if_false, htake', hdrop']

theorem ignoreLoop_token (rest : List Char) :
    ∀ (t : List Char) (n : Nat), t.length < n → (∀ c ∈ t, c ≠ Char.ofNat 32) →
      ignoreLoop (Char.ofNat 32) n (t ++ Char.ofNat 32 :: rest) = (rest, false) := by
  intro t
  induction t with
  | nil =>
    intro n hn _
    cases n with
    | zero => simp at hn
    | succ n => simp [ignoreLoop]
  | cons c t ih =>
    intro n hn hc
    cases n with
    | zero => simp at hn
    | succ n =>
      have hne : c ≠ Char.ofNat 32 := hc c (List.mem_cons_self c t)
      have := ih n (by simpa using hn) (fun x hx => hc x (List.mem_cons_of_mem c hx))
      simp [ignoreLoop, hne, this]

/-- One `ignore(256, ' ')` passes over a field and the space after it. -/
theorem ignore_token (t rest : List Char) (ht : IsSkippable t) :
    IStream.ignore 256 (Char.ofNat 32) ⟨t ++ Char.ofNat 32 :: rest, false, false⟩
      = ⟨rest, false, false⟩ := by
  unfold IStream.ignore
  simp [IStream.good, ignoreLoop_token rest t 256 ht.1 ht.2]

/-- An `ignore(256, ' ')` on a stream that stands before a space consumes that space only. -/
theorem ignore_space (rest : List Char) :
    IStream.ignore 256 (Char.ofNat 32) ⟨Char.ofNat 32 :: rest, false, false⟩
      = ⟨rest, false, false⟩ :=
  ignore_token [] rest ⟨by simp, by simp⟩

/-- As many `ignore(256, ' ')` as there are fields pass over all of them. -/
theorem ignoreFields_spaced (rest : List Char) :
    ∀ ts : List (List Char), (∀ t ∈ ts, IsSkippable t) →
      IStream.ignoreFields ts.length ⟨spaced ts ++ rest, false, false⟩ = ⟨rest, false, false⟩ := by
  intro ts
  induction ts with
  | nil => intro _; rfl
  | cons t ts ih =>
    intro h
    have ht := h t (List.mem_cons_self t ts)
    have := ih (fun x hx => h x (List.mem_cons_of_mem t hx))
    simp only [List.length_cons, IStream.ignoreFields, spaced, List.append_assoc,
      List.cons_append]
    rw [ignore_token t _ ht]
    exact this

/-- What the extraction sequence of `getProcessInfo` reads from a well-formed record: fields
1 to 4 as intended, then field 13 (`cmajflt`) into `utime`, field 14 (`utime`) into `stime`
and field 20 (`num_threads`) into `starttime`. -/
theorem parseStatLine_statRecord (pid comm state ppid : List Char)
    (fields5to12 : List (List Char)) (cmajflt utime : List Char)
    (fields15to19 : List (List Char)) (num_threads rest : List Char)
    (hpid : IsNumber (2 ^ 31 - 1) pid) (hcomm : IsWord comm) (hstate : IsWord state)
    (hppid : IsNumber (2 ^ 31 - 1) ppid)
    (h5 : fields5to12.length = 8) (h5s : ∀ t ∈ fields5to12, IsSkippable t)
    (hcmajflt : IsNumber (2 ^ 63 - 1) cmajflt) (hutime : IsNumber (2 ^ 63 - 1) utime)
    (h15 : fields15to19.length = 5) (h15s : ∀ t ∈ fields15to19, IsSkippable t)
    (hthreads : IsNumber (2 ^ 63 - 1) num_threads)
    (hrest : rest = [] ∨ rest.head? = some (Char.ofNat 32)) :
    parseStatLine
        (statRecord pid comm state ppid fields5to12 cmajflt utime fields15to19 num_threads rest)
      = ⟨some (digitsValue pid), comm, state, some (digitsValue ppid),
          some (digitsValue cmajflt), some (digitsValue utime),
          some (digitsValue num_threads)⟩ := by
  have e1 := readInteger_number (-(2 ^ 31)) (2 ^ 31 - 1) (2 ^ 31 - 1) pid
    (Char.ofNat 32 :: (comm ++ Char.ofNat 32 :: (state ++ Char.ofNat 32 :: (ppid ++ Char.ofNat 32 :: (spaced fields5to12 ++ (cmajflt ++ Char.ofNat 32 :: (utime ++ Char.ofNat 32 :: (spaced fields15to19 ++ (num_threads ++ rest))))))))) false
    (by norm_num) (by norm_num) hpid (Or.inr rfl)
  have e2 := readString_word comm
    (Char.ofNat 32 :: (state ++ Char.ofNat 32 :: (ppid ++ Char.ofNat 32 :: (spaced fields5to12 ++ (cmajflt ++ Char.ofNat 32 :: (utime ++ Char.ofNat 32 :: (spaced fields15to19 ++ (num_threads ++ rest)))))))) true hcomm (Or.inr rfl)
  have e3 := readString_word state
    (Char.ofNat 32 :: (ppid ++ Char.ofNat 32 :: (spaced fields5to12 ++ (cmajflt ++ Char.ofNat 32 :: (utime ++ Char.ofNat 32 :: (spaced fields15to19 ++ (num_threads ++ rest))))))) true hstate (Or.inr rfl)
  have e4 := readInteger_number (-(2 ^ 31)) (2 ^ 31 - 1) (2 ^ 31 - 1) ppid
    (Char.ofNat 32 :: (spaced fields5to12 ++ (cmajflt ++ Char.ofNat 32 :: (utime ++ Char.ofNat 32 :: (spaced fields15to19 ++ (num_threads ++ rest)))))) true
    (by norm_num) (by norm_num) hppid (Or.inr rfl)
  have e5 := ignoreFields_spaced
    (cmajflt ++ Char.ofNat 32 :: (utime ++ Char.ofNat 32 :: (spaced fields15to19 ++ (num_threads ++ rest)))) fields5to12 h5s
  have e6 := readInteger_number (-(2 ^ 63)) (2 ^ 63 - 1) (2 ^ 63 - 1) cmajflt
    (Char.ofNat 32 :: (utime ++ Char.ofNat 32 :: (spaced fields15to19 ++ (num_threads ++ rest)))) false
    (by norm_num) (by norm_num) hcmajflt (Or.inr rfl)
  have e7 := readInteger_number (-(2 ^ 63)) (2 ^ 63 - 1) (2 ^ 63 - 1) utime
    (Char.ofNat 32 :: (spaced fields15to19 ++ (num_threads ++ rest))) true
    (by norm_num) (by norm_num) hutime (Or.inr rfl)
  have e8 := ignoreFields_spaced (num_threads ++ rest) fields15to19 h15s
  have e9 := readInteger_number (-(2 ^ 63)) (2 ^ 63 - 1) (2 ^ 63 - 1) num_threads rest false
    (by norm_num) (by norm_num) hthreads hrest
  rw [h5] at e5
  rw [h15] at e8
  simp only [Bool.false_eq_true, if_false, if_true, List.isEmpty_cons] at e1 e2 e3 e4 e6 e7 e9
  unfold parseStatLine statRecord
  simp only [IStream.readInt, IStream.readLong, IStream.ofLine]
  rw [e1]
  simp only
  rw [e2]
  simp only
  rw [e3]
  simp only
  rw [e4]
  simp only
  rw [show IStream.ignoreFields 9 = fun s => IStream.ignoreFields 8
        (IStream.ignore 256 (Char.ofNat 32) s) from rfl]
  simp only
  rw [ignore_space, e5, e6]
  simp only
  rw [e7]
  simp only
  rw [show IStream.ignoreFields 6 = fun s => IStream.ignoreFields 5
        (IStream.ignore 256 (Char.ofNat 32) s) from rfl]
  simp only
  rw [ignore_space, e8, e9]
  simp

theorem substr_parenthesised (name : List Char) (hlen : name.length + 2 < 2 ^ 64) :
    substr (Char.ofNat 40 :: (name ++ [Char.ofNat 41])) 1
        (sizeSub (Char.ofNat 40 :: (name ++ [Char.ofNat 41])).length 2)
      = some name := by
  have hl : (Char.ofNat 40 :: (name ++ [Char.ofNat 41])).length = name.length + 2 := by simp
  have hs : sizeSub (name.length + 2) 2 = name.length := by
    unfold sizeSub
    have : name.length + 2 + 2 ^ 64 - 2 = name.length + 2 ^ 64 := by omega
    rw [this, Nat.add_mod_right, Nat.mod_eq_of_lt (by omega)]
  unfold substr
  rw [hl, hs, if_neg (by omega)]
  simp

/-- The assignments of `getProcessInfo` on every well-formed record whose `comm` is
`(name)`: name, state and parent are as the record says; `utime` receives field 13
(`cmajflt`), `stime` field 14 (`utime`) and `starttime` field 20 (`num_threads`). -/
theorem applyStat_statRecord (proc : ProcessInfo) (pid name state ppid : List Char)
    (fields5to12 : List (List Char)) (cmajflt utime : List Char)
    (fields15to19 : List (List Char)) (num_threads rest : List Char)
    (hpid : IsNumber (2 ^ 31 - 1) pid)
    (hname : ∀ c ∈ name, isspace c = false) (hlen : name.length + 2 < 2 ^ 64)
    (hstate : IsWord state) (hppid : IsNumber (2 ^ 31 - 1) ppid)
    (h5 : fields5to12.length = 8) (h5s : ∀ t ∈ fields5to12, IsSkippable t)
    (hcmajflt : IsNumber (2 ^ 63 - 1) cmajflt) (hutime : IsNumber (2 ^ 63 - 1) utime)
    (h15 : fields15to19.length = 5) (h15s : ∀ t ∈ fields15to19, IsSkippable t)
    (hthreads : IsNumber (2 ^ 63 - 1) num_threads)
    (hrest : rest = [] ∨ rest.head? = some (Char.ofNat 32)) :
    applyStat proc
        (statRecord pid (Char.ofNat 40 :: (name ++ [Char.ofNat 41])) state ppid fields5to12
          cmajflt utime fields15to19 num_threads rest)
      = .ok { proc with
              pid := digitsValue pid, name := name, state := state, ppid := digitsValue ppid
              utime := digitsValue cmajflt, stime := digitsValue utime
              starttime := digitsValue num_threads } := by
  have hcomm : IsWord (Char.ofNat 40 :: (name ++ [Char.ofNat 41])) := by
    refine ⟨by simp, ?_⟩
    intro c hc
    rcases List.mem_cons.1 hc with rfl | hc
    · decide
    · rcases List.mem_append.1 hc with hc | hc
      · exact hname c hc
      · rw [List.mem_singleton.1 hc]; decide
  unfold applyStat
  simp only
  rw [parseStatLine_statRecord pid _ state ppid fields5to12 cmajflt utime fields15to19
    num_threads rest hpid hcomm hstate hppid h5 h5s hcmajflt hutime h15 h15s hthreads hrest]
  simp only [substr_parenthesised name hlen, Option.getD_some]

set_option maxRecDepth 100000 in
/-- The sample record is one of these well-formed records. -/
theorem sampleStatLine_eq_statRecord :
    sampleStatLine = statRecord "1234".toList "(bash)".toList "S".toList "1".toList
      ["1234".toList, "1234".toList, "34816".toList, "1234".toList, "4194304".toList,
        "100".toList, "200".toList, "3".toList]
      "4".toList "55".toList
      ["66".toList, "7".toList, "8".toList, "20".toList, "0".toList]
      "1".toList
      (" 0 9999 12345678 900 18446744073709551615 1 1 0 0 0 0 0 0 0 0 0 0 17 3 0 0 0 0 0").toList := by
  decide

/-! ## C11: the previous-sample cache -/

/-- The cache after a successful sample (either source file) is the old cache with the one
assignment `prev_cpu_times[pid] = total_time`, where `total_time` is the `long` value of
`utime + stime`. -/
theorem getProcessInfo_cache_eq (pm : ProcessManager) (fs : ProcFs) (pid : Int)
    (proc : ProcessInfo) (pm1 : ProcessManager)
    (hs : pm.getProcessInfo fs pid = .ok (proc, pm1)
      ∨ SrcProcessManager.getProcessInfo pm fs pid = .ok (proc, pm1)) :
    pm1.prev_cpu_times
      = cacheStore pm.prev_cpu_times pid (wrapLong (proc.utime + proc.stime)) := by
  have hrate : ∃ p, (proc, pm1) = rateProcess pm fs pid p := by
    rcases hs with hs | hs
    · obtain ⟨p, hp, _⟩ := root_getProcessInfo_ok pm fs pid _ hs
      exact ⟨p, hp⟩
    · obtain ⟨p, hp, _⟩ := src_getProcessInfo_ok pm fs pid _ hs
      exact ⟨p, hp⟩
  obtain ⟨p, hp⟩ := hrate
  have hproc : proc = (rateProcess pm fs pid p).1 := congrArg Prod.fst hp
  have hpm1 : pm1 = (rateProcess pm fs pid p).2 := congrArg Prod.snd hp
  obtain ⟨hu, hst, _⟩ := rateProcess_fields pm fs pid p
  rw [hpm1, rateProcess_cache, hproc, hu, hst]

theorem cacheStore_keeps_entries (cache : Int → Option Int) (pid v q : Int)
    (h : (cache q).isSome = true) : (cacheStore cache pid v q).isSome = true := by
  unfold cacheStore
  split
  · rfl
  · exact h

theorem getSystemInfo_cache (pm : ProcessManager) (fs : ProcFs) (info : SystemInfo)
    (pm1 : ProcessManager) (h : pm.getSystemInfo fs = .ok (info, pm1)) :
    pm1.prev_cpu_times = pm.prev_cpu_times := by
  unfold ProcessManager.getSystemInfo at h
  split at h
  · exact Outcome.noConfusion h
  · split at h
    · injection h with h; injection h with _ h2; rw [← h2]
    · split at h
      · exact Outcome.noConfusion h
      · injection h with h; injection h with _ h2; rw [← h2]

theorem scanLoop_keeps_entries
    (sample : ProcessManager → ProcFs → Int → Outcome (ProcessInfo × ProcessManager))
    (keeps : ProcessInfo → Bool)
    (hsample : ∀ pm fs pid proc pm1, sample pm fs pid = .ok (proc, pm1) →
      ∀ q, (pm.prev_cpu_times q).isSome = true → (pm1.prev_cpu_times q).isSome = true)
    (fs : ProcFs) (entries : List Dirent) :
    ∀ (pm pm2 : ProcessManager), scanLoop sample keeps fs pm entries = .ok pm2 →
      ∀ q, (pm.prev_cpu_times q).isSome = true → (pm2.prev_cpu_times q).isSome = true := by
  induction entries with
  | nil =>
    intro pm pm2 h q hq
    simp only [scanLoop] at h
    injection h with h
    rw [← h]; exact hq
  | cons entry rest ih =>
    intro pm pm2 h q hq
    simp only [scanLoop] at h
    split at h
    · rename_i pm1 he
      refine ih pm1 pm2 h q ?_
      unfold scanEntry at he
      split at he
      · split at he
        · exact Outcome.noConfusion he
        · split at he
          · rename_i proc pmS hs
            have hm := hsample _ _ _ _ _ hs q hq
            split at he
            · injection he with he; rw [← he]; exact hm
            · injection he with he; rw [← he]; exact hm
          · injection he with he; rw [← he]; exact hq
          · exact Outcome.noConfusion he
      · injection he with he; rw [← he]; exact hq
    · exact Outcome.noConfusion h
    · exact Outcome.noConfusion h

/-- A scan (either source file) never removes a cache entry: a pid that had one keeps one,
whether or not the process is still listed. -/
theorem scanProcesses_keeps_entries (pm pm2 : ProcessManager) (fs : ProcFs)
    (h : pm.scanProcesses fs = .ok pm2 ∨ SrcProcessManager.scanProcesses pm fs = .ok pm2) :
    ∀ q, (pm.prev_cpu_times q).isSome = true → (pm2.prev_cpu_times q).isSome = true := by
  have hgen : ∀ (sample : ProcessManager → ProcFs → Int → Outcome (ProcessInfo × ProcessManager))
      (keeps : ProcessInfo → Bool),
      (∀ pm fs pid proc pm1, sample pm fs pid = .ok (proc, pm1) →
        ∀ q, (pm.prev_cpu_times q).isSome = true → (pm1.prev_cpu_times q).isSome = true) →
      scanWith sample keeps pm fs = .ok pm2 →
      ∀ q, (pm.prev_cpu_times q).isSome = true → (pm2.prev_cpu_times q).isSome = true := by
    intro sample keeps hsample hscan q hq
    unfold scanWith at hscan
    split at hscan
    · exact Outcome.noConfusion hscan
    · exact Outcome.noConfusion hscan
    · rename_i info pm1 hsys
      have hc : pm1.prev_cpu_times = pm.prev_cpu_times :=
        getSystemInfo_cache { pm with processes := [] } fs info pm1 hsys
      simp only at hscan
      split at hscan
      · injection hscan with hscan
        rw [← hscan]
        show (pm1.prev_cpu_times q).isSome = true
        rw [hc]; exact hq
      · split at hscan
        · rename_i pm3 hloop
          injection hscan with hscan
          have := scanLoop_keeps_entries sample keeps hsample fs _ _ pm3 hloop q
            (by show (pm1.prev_cpu_times q).isSome = true; rw [hc]; exact hq)
          rw [← hscan]
          exact this
        · exact Outcome.noConfusion hscan
        · exact Outcome.noConfusion hscan
  rcases h with h | h
  · exact hgen ProcessManager.getProcessInfo ProcessManager.keeps
      (fun pm fs pid proc pm1 hs q hq => by
        rw [getProcessInfo_cache_eq pm fs pid proc pm1 (Or.inl hs)]
        exact cacheStore_keeps_entries _ _ _ q hq) h
  · exact hgen SrcProcessManager.getProcessInfo SrcProcessManager.keeps
      (fun pm fs pid proc pm1 hs q hq => by
        rw [getProcessInfo_cache_eq pm fs pid proc pm1 (Or.inr hs)]
        exact cacheStore_keeps_entries _ _ _ q hq) h

/-! ## C12: the memory bar of `printHeader` -/

theorem ofLong_zero : Double.ofLong 0 = .finite 0 0 := by
  simp [Double.ofLong, ofRatio_zero]

theorem hundred_eq : Double.hundred = .finite 7036874417766400 (-46) := by
  set_option maxRecDepth 100000 in decide

theorem fifty_eq : Double.ofLong 50 = .finite 7036874417766400 (-47) := by
  set_option maxRecDepth 100000 in decide

/-- Division by the double zero: NaN for `0 / 0`, an infinity otherwise. -/
theorem percentOf_zero_divisor (x : Int) :
    (x = 0 → percentOf x 0 = .nan)
    ∧ (x ≠ 0 → percentOf x 0 = .inf (decide (x < 0))) := by
  constructor
  · intro hx
    subst hx
    simp [percentOf, ofLong_zero, Double.div, Double.mul]
  · intro hx
    obtain ⟨hpos⟩ : Nonempty (0 < x.natAbs) := ⟨Int.natAbs_pos.2 hx⟩
    have hm := roundPos_fst_pos x.natAbs 1 hpos (by norm_num)
    have hx' : x.natAbs ≠ 0 := by omega
    have hof : Double.ofLong x
        = .finite (if decide (x < 0) then -((roundPos x.natAbs 1).1 : Int)
            else ((roundPos x.natAbs 1).1 : Int)) ((roundPos x.natAbs 1).2 + 0) := by
      unfold Double.ofLong
      exact ofRatio_pos _ _ _ _ hpos
    have hne : (if decide (x < 0) then -((roundPos x.natAbs 1).1 : Int)
        else ((roundPos x.natAbs 1).1 : Int)) ≠ 0 := by
      split <;> omega
    have hsign : decide ((if decide (x < 0) then -((roundPos x.natAbs 1).1 : Int)
        else ((roundPos x.natAbs 1).1 : Int)) < 0) = decide (x < 0) := by
      by_cases hneg : x < 0
      · simp only [hneg, decide_True, if_true, decide_eq_true_eq]; omega
      · simp only [hneg, decide_False, Bool.false_eq_true, if_false, decide_eq_false_iff_not]
        omega
    unfold percentOf
    rw [hof, ofLong_zero]
    simp only [Double.div, if_true, hne, if_false, hsign, hundred_eq, Double.mul]
    simp

theorem filledCells_nan : filledCells .nan = none := by
  simp [filledCells, Double.div, Double.mul, Double.toInt32]

theorem filledCells_inf (s : Bool) : filledCells (.inf s) = none := by
  simp [filledCells, hundred_eq, fifty_eq, Double.div, Double.mul, Double.toInt32]

/-- With a total memory of 0, line 261 divides by zero for every value of `used_mem`:
`mem_usage` is NaN or an infinity, its conversion to `int` on line 262 is undefined, and
`printHeader` has no defined result. -/
theorem printHeader_total_mem_zero (pm : ProcessManager) (ws_col : Nat)
    (h0 : pm.sys_info.total_mem = 0) :
    ¬ pm.memUsage.IsFinite ∧ filledCells pm.memUsage = none ∧ pm.printHeader ws_col = none := by
  obtain ⟨hz, hnz⟩ := percentOf_zero_divisor pm.sys_info.used_mem
  have hcases : pm.memUsage = .nan ∨ ∃ s, pm.memUsage = .inf s := by
    unfold ProcessManager.memUsage
    rw [h0]
    by_cases hu : pm.sys_info.used_mem = 0
    · left; exact hz hu
    · right; exact ⟨_, hnz hu⟩
  have hfill : filledCells pm.memUsage = none := by
    rcases hcases with h | ⟨s, h⟩
    · rw [h]; exact filledCells_nan
    · rw [h]; exact filledCells_inf s
  refine ⟨?_, hfill, ?_⟩
  · rcases hcases with h | ⟨s, h⟩ <;> rw [h] <;> simp [Double.IsFinite]
  · unfold ProcessManager.printHeader
    rw [hfill]
    split
    · rename_i h1 h2; exact Option.noConfusion h2
    · rfl

set_option maxRecDepth 100000 in
/-- C12 (code defect): after a scan in which `/proc/meminfo` could not be read, `sys_info` has
`total_mem = 0` and `used_mem = 0`; `printHeader` then computes `mem_usage = 0.0 / 0.0`, a
NaN, and converts it to `int`, which is undefined.  `getProcessInfo` guards the same division
with `total_mem > 0`.  With a readable `/proc/meminfo` (12000000 of 16000000 kB used) the bar
has 37 filled cells. -/
theorem printHeader_divides_by_zero_total :
    headerView (ProcessManager.init.scanProcesses noMeminfoFs) 80 = some (0, 0, .nan, none)
    ∧ Double.div (Double.ofLong 0) (Double.ofLong 0) = .nan
    ∧ Double.toInt32 .nan = none
    ∧ memBarFilled ((headerView (ProcessManager.init.scanProcesses (processFs sampleStatLine))
          80).bind (fun v => v.2.2.2)) = some 37 :=
  ⟨by decide, by decide, by decide, by decide⟩

/-! ## Sorting around two toggles of the direction -/

/-- When the direction is ascending (and no percentage is NaN), the sort after two `r`
commands is defined and is the original sort: a permutation of the list in which no process
is ranked before an earlier one. -/
theorem sortProcesses_after_toggles_ascending (pm : ProcessManager)
    (hasc : pm.reverse_sort = false)
    (hnan : ∀ p ∈ pm.processes, p.cpu_percent ≠ .nan ∧ p.mem_percent ≠ .nan) :
    ∃ sorted, ((pm.command 'r').1.command 'r').1.sortProcesses
        = some { pm with processes := sorted }
      ∧ pm.sortProcesses = some { pm with processes := sorted }
      ∧ sorted.Perm pm.processes
      ∧ sorted.Pairwise (fun x y => pm.sortComp y x = false) := by
  obtain ⟨sorted, h1, h2, h3⟩ := sortProcesses_ascending pm hasc hnan
  refine ⟨sorted, ?_, h1, h2, h3⟩
  rw [(toggle_twice_restores_state pm).1]
  exact h1

/-! ## Tick sums beyond the range of `long` -/

set_option maxRecDepth 100000 in
/-- With `utime = LONG_MAX` and `stime = 1` the sum wraps and the cache receives `LONG_MIN`;
with both at `LONG_MAX` and 9 cached ticks the wrapped delta is negative and the scan of
`src/src/process-manager.cpp` leaves the process out. -/
theorem tick_sum_wraps_at_long_max :
    cacheView (SrcProcessManager.getProcessInfo (cachedManager 9 16000000)
        (processFs longMaxStatLine) 1234) = some (some (-(2 ^ 63)), none)
    ∧ scanView (SrcProcessManager.scanProcesses (cachedManager 9 16000000)
        (processFs twiceLongMaxStatLine)) = some ([], 16000000) :=
  ⟨by decide, by decide⟩
